import Mathlib

/-!
# Verification of the DFaC flow decompose/compose core (`src/dfac/dfac.py`)

Shallow embedding of the pure core of `dfac.py`:

* `ensure_filename`   — the cross-platform filename sanitizer (lines 65–105);
* `resolve_app_identifier` — registry token resolution (lines 29–44);
* `allocate_dir_for_app`   — registry directory allocation (lines 46–63);
* `split_flow_to_files`    — decomposition of a workflow document into a
  directory tree (lines 161–212);
* `build_flow_from_files`  — composition of a directory tree back into a
  workflow document (lines 215–255).

Modelling conventions:

* The filesystem is an explicit association list from path strings to file
  contents; `Path.write_text` prepends, `read_text` finds the most recent
  write.  YAML serialization (`yaml.safe_dump` / `yaml.safe_load`) is a
  bijection on the document shapes used here, so structured files store the
  structured value directly.  Reading a structured file as raw text (or a raw
  text file as a node/main descriptor) never happens in the scenarios the
  claims are about and is represented by a distinguished error.
* `unicodedata.normalize("NFKC", ·)` is the identity on the ASCII fragment
  modelled by this development and is embedded as the identity function.
* `Path(...).resolve()` is the identity: all operations of one run use the
  same working directory, so relative paths resolve consistently.
* Python exceptions become `Except` errors; mutation of the caller's
  arguments (the `dsl` dictionary and its aliased sub-dictionaries in
  `split_flow_to_files`) is made explicit in the returned `SplitResult`.
-/

namespace Dfac

/-! ## NameSanitizer: `ensure_filename` (dfac.py lines 65–105) -/

/-- Models `unicodedata.normalize("NFKC", name)` (dfac.py line 76).
NFKC normalization is the identity on ASCII strings, which is the fragment
this development models. -/
def nfkc (s : String) : String := s

/-- The character class of the regex `[\\/:*?"<>|\x00-\x1F]`
(dfac.py line 82): characters illegal in filenames on Windows/macOS/Linux. -/
def isInvalidChar (c : Char) : Bool :=
  c == '\\' || c == '/' || c == ':' || c == '*' || c == '?' || c == '"' ||
  c == '<' || c == '>' || c == '|' || decide (c.toNat ≤ 0x1F)

/-- `re.sub(invalid_chars, "_", name)` (dfac.py line 83). -/
def replaceInvalid (l : List Char) : List Char :=
  l.map (fun c => if isInvalidChar c then '_' else c)

/-- The characters stripped by `name.strip(" .")` (dfac.py line 86). -/
def isStripChar (c : Char) : Bool := c == ' ' || c == '.'

/-- `name.strip(" .")` (dfac.py line 86): drop leading and trailing spaces
and dots. -/
def stripSpaceDot (l : List Char) : List Char :=
  ((l.dropWhile isStripChar).reverse.dropWhile isStripChar).reverse

/-- `WINDOWS_RESERVED_NAMES` (dfac.py lines 13–17). -/
def WINDOWS_RESERVED_NAMES : List String :=
  ["CON", "PRN", "AUX", "NUL",
   "COM1", "COM2", "COM3", "COM4", "COM5", "COM6", "COM7", "COM8", "COM9",
   "LPT1", "LPT2", "LPT3", "LPT4", "LPT5", "LPT6", "LPT7", "LPT8", "LPT9"]

/-- `name.upper()` (dfac.py line 93); faithful on the ASCII fragment. -/
def upperChars (l : List Char) : List Char := l.map Char.toUpper

/-- `re.sub(r"_+", "_", name)` (dfac.py line 98): collapse every run of
underscores into a single underscore. -/
def collapseUnderscores : List Char → List Char
  | [] => []
  | [c] => [c]
  | c₁ :: c₂ :: rest =>
    if c₁ = '_' ∧ c₂ = '_' then collapseUnderscores (c₂ :: rest)
    else c₁ :: collapseUnderscores (c₂ :: rest)

/-- Step 4 of `ensure_filename` (dfac.py lines 89–90): an empty name
becomes `"unnamed"`. -/
def substUnnamed (l : List Char) : List Char :=
  if l.isEmpty then "unnamed".data else l

/-- Step 5 of `ensure_filename` (dfac.py lines 93–95): a (case-insensitive)
Windows reserved device name gets a trailing underscore. -/
def reservedGuard (l : List Char) : List Char :=
  if WINDOWS_RESERVED_NAMES.contains (String.mk (upperChars l)) then l ++ ['_'] else l

/-- Steps 2–6 of `ensure_filename` (dfac.py lines 82–98) on the character
list of the (already normalized) input: replace illegal characters with
`_`, strip outer spaces and dots, substitute `"unnamed"` for an empty
result, disambiguate Windows reserved device names (case-insensitively)
with a trailing `_`, and collapse underscore runs. -/
def sanitizeChars (l : List Char) : List Char :=
  collapseUnderscores (reservedGuard (substUnnamed (stripSpaceDot (replaceInvalid l))))

/-- `ensure_filename(name, extension=None)` (dfac.py lines 65–105):
NFKC-normalize, sanitize (`sanitizeChars`), and finally append the
extension (normalizing a leading dot); a `None`/empty extension is not
appended (Python truthiness of `if extension:`). -/
def ensure_filename (name : String) (extension : Option String := none) : String :=
  let base := String.mk (sanitizeChars (nfkc name).data)
  match extension with
  | none => base
  | some e =>
    if e.isEmpty then base
    else if e.startsWith "." then base ++ e else base ++ "." ++ e

/-! ## Data model

`WorkflowDocument` / `NodeRecord` / `PromptEntry` as traversed by
`split_flow_to_files` and `build_flow_from_files`.  A text-bearing field is
either inline text or a reference pointer `{"ref": path}`. -/

/-- Inline text or a reference pointer `{"ref": path}`. -/
inductive TextVal where
  | text (s : String)
  | ref (path : String)
deriving DecidableEq, Repr

/-- One entry of `data.prompt_template`: `{role, text}`. -/
structure PromptEntry where
  role : String
  text : TextVal
deriving DecidableEq, Repr

/-- The `data` mapping of a node: `title` (dfac.py line 173 reads
`node["data"]["title"]`), optional `prompt_template`, optional `code` with
sibling `code_language`. -/
structure NodeData where
  title : String
  prompt_template : Option (List PromptEntry) := none
  code : Option TextVal := none
  code_language : Option String := none
deriving DecidableEq, Repr

/-- A node record `{id, data}`. -/
structure Node where
  id : String
  data : NodeData
deriving DecidableEq, Repr

/-- An element of `workflow.graph.nodes`: an inline node record, or (in the
decomposed main descriptor) a reference pointer `{"ref": path}`. -/
inductive NodeEntry where
  | node (n : Node)
  | ref (path : String)
deriving DecidableEq, Repr

/-- The workflow document (`dsl`): app metadata plus
`workflow.graph.nodes`.  `appName` stands for `dsl["app"]["name"]` and all
other fields preserved verbatim by the shallow `dict(...)` copies. -/
structure Doc where
  appName : String
  nodes : List NodeEntry
deriving DecidableEq, Repr

/-! ## Filesystem model -/

/-- Contents of one file: raw text, a node descriptor (YAML), or a main
descriptor (YAML).  YAML serialization round-trips these shapes, so the
structured value is stored directly. -/
inductive FData where
  | text (s : String)
  | yamlNode (n : Node)
  | yamlMain (d : Doc)
deriving DecidableEq, Repr

/-- The filesystem: an association list of writes, most recent first. -/
abbrev FS := List (String × FData)

/-- `write_text` / `safe_dump` to a path: record the write. -/
def fsWrite (fs : FS) (p : String) (d : FData) : FS := (p, d) :: fs

/-- `read_text` / `safe_load` from a path: the most recent write, if any. -/
def fsRead (fs : FS) (p : String) : Option FData :=
  (fs.find? (fun e => e.1 == p)).map (·.2)

/-! ## IdentityRegistry (dfac.py lines 19–63)

The registry file `dfac_apps.yaml` holds `{apps: [{name, id, dir}, ...]}`.
Persistence (`save_apps_map`) is modelled by returning the updated map. -/

/-- One registry entry `{name, id, dir}`. -/
structure AppEntry where
  name : String
  id : String
  dir : String
deriving DecidableEq, Repr

/-- The registry `{apps: [...]}`. -/
structure AppsMap where
  apps : List AppEntry
deriving DecidableEq, Repr

/-- The external-identifier shape test `re.fullmatch(r"[0-9a-fA-F-]{36}", ·)`
(dfac.py line 31): exactly 36 characters, each a hex digit or a dash. -/
def isExternalIdChar (c : Char) : Bool :=
  ('0' ≤ c && c ≤ '9') || ('a' ≤ c && c ≤ 'f') || ('A' ≤ c && c ≤ 'F') || c == '-'

/-- `re.fullmatch(r"[0-9a-fA-F-]{36}", s)` succeeds. -/
def looksLikeAppId (s : String) : Bool :=
  s.data.length == 36 && s.data.all isExternalIdChar

/-- `resolve_app_identifier(name_or_dir, apps_map)` (dfac.py lines 29–44):
an id-shaped token is returned unchanged; otherwise the first entry whose
`dir` equals the token wins, then the first entry whose `name` equals it;
no match raises `ValueError` (the `UnknownApp` failure), carrying the
token. -/
def resolve_app_identifier (name_or_dir : String) (apps_map : AppsMap) :
    Except String String :=
  if looksLikeAppId name_or_dir then .ok name_or_dir
  else
    match apps_map.apps.find? (fun e => e.dir == name_or_dir) with
    | some e => .ok e.id
    | none =>
      match apps_map.apps.find? (fun e => e.name == name_or_dir) with
      | some e => .ok e.id
      | none => .error name_or_dir

/-- One candidate directory name `f"{base}_{suffix}"` (dfac.py line 54). -/
def dirCandidate (base : String) (suffix : Nat) : String :=
  base ++ "_" ++ Nat.repr suffix

/-- The `while dir_name in exists:` loop of `allocate_dir_for_app`
(dfac.py lines 52–55), written with explicit fuel.  The loop always
terminates because the candidates are pairwise distinct and `exists` is
finite; `allocDirLoop_not_mem` below proves that `exs.length + 1` steps
always reach a free name, so the fuel value used by `allocate_dir_for_app`
never runs out. -/
def allocDirLoop (base : String) (exs : List String) :
    Nat → String → Nat → String
  | 0, dirName, _ => dirName
  | fuel + 1, dirName, suffix =>
    if dirName ∈ exs then allocDirLoop base exs fuel (dirCandidate base suffix) (suffix + 1)
    else dirName

/-- `allocate_dir_for_app(app_name, app_id, apps_map)` (dfac.py lines
46–63): sanitize the name, find the first unused directory among
`base, base_2, base_3, …`, append the new `{name, id, dir}` entry, persist
(modelled by returning the new map), and return the chosen directory. -/
def allocate_dir_for_app (app_name app_id : String) (apps_map : AppsMap) :
    AppsMap × String :=
  let base := ensure_filename app_name
  let exs := apps_map.apps.map (·.dir)
  let dirName := allocDirLoop base exs (exs.length + 1) base 2
  (⟨apps_map.apps ++ [{ name := app_name, id := app_id, dir := dirName }]⟩, dirName)

/-! ## Decomposer: `split_flow_to_files` (dfac.py lines 161–212) -/

/-- Does `pat` occur as a contiguous substring at the start of `l`? -/
def startsWithChars : List Char → List Char → Bool
  | _, [] => true
  | [], _ :: _ => false
  | c :: cs, d :: ds => c == d && startsWithChars cs ds

/-- Python's `pat in s` substring containment. -/
def strContainsAux (pat : List Char) : List Char → Bool
  | [] => startsWithChars [] pat
  | c :: rest => startsWithChars (c :: rest) pat || strContainsAux pat rest

/-- Python's substring test `pat in s` (used on `code_language`,
dfac.py lines 192 and 194). -/
def strContains (s pat : String) : Bool := strContainsAux pat.data s.data

/-- Errors raised by `split_flow_to_files`:
`keyError k` models a Python `KeyError` on the missing key `k` (a ref entry
in the node list has no `"data"`, or inline code has no sibling
`code_language`); `typeError` models the `TypeError` from
`Path.write_text` applied to a non-string (a prompt whose `text` is already
a ref mapping). -/
inductive SplitError where
  | keyError (k : String)
  | typeError
deriving DecidableEq, Repr

/-- The `for prompt in node_data["prompt_template"]` loop (dfac.py lines
182–187): write each entry's `text` to
`prompts/<base>__<ensure_filename(role)>.md` and replace the text with a
reference pointer to that file.  The entry dictionaries are the caller's
own objects, mutated in place; the returned list holds their new states. -/
def splitPromptList (promptsDir nodeNamePath : String) :
    List PromptEntry → FS → Except SplitError (FS × List PromptEntry)
  | [], fs => .ok (fs, [])
  | pe :: rest, fs =>
    match pe.text with
    | .ref _ => .error .typeError
    | .text t =>
      let promptName := nodeNamePath ++ "__" ++ ensure_filename pe.role
      let promptPath := promptsDir ++ "/" ++ promptName ++ ".md"
      let fs1 := fsWrite fs promptPath (.text t)
      match splitPromptList promptsDir nodeNamePath rest fs1 with
      | .error e => .error e
      | .ok (fs2, rest') => .ok (fs2, { pe with text := .ref promptPath } :: rest')

/-- The body of the `for node in dsl["workflow"]["graph"]["nodes"]` loop
(dfac.py lines 172–208) for a single entry.  A `{"ref": ...}` entry has no
`"data"` key, so `node["data"]["title"]` raises `KeyError`.  For a node:
split the prompts, then—if `data.code` is an inline string—write it under
`code/<base>.{py|js|txt}` chosen by substring containment on
`data.code_language` (a missing `code_language` is a `KeyError`) and
replace it by a reference pointer; write the updated node to
`nodes/<base>.yaml`.  Because `node_data = dict(node)["data"]` aliases the
caller's `data` mapping, the returned node is also the post-call state of
the caller's original node object. -/
def splitNode (nodesDir promptsDir codeDir : String) (entry : NodeEntry)
    (fs : FS) : Except SplitError (FS × String × Node) :=
  match entry with
  | .ref _ => .error (.keyError "data")
  | .node n =>
    let nodeNamePath := ensure_filename n.data.title
    let nodeFile := nodesDir ++ "/" ++ nodeNamePath ++ ".yaml"
    let afterPrompts : Except SplitError (FS × NodeData) :=
      match n.data.prompt_template with
      | none => .ok (fs, n.data)
      | some pes =>
        match splitPromptList promptsDir nodeNamePath pes fs with
        | .error e => .error e
        | .ok (fs1, pes') => .ok (fs1, { n.data with prompt_template := some pes' })
    match afterPrompts with
    | .error e => .error e
    | .ok (fs1, data1) =>
      let afterCode : Except SplitError (FS × NodeData) :=
        match data1.code with
        | some (.text c) =>
          match data1.code_language with
          | none => .error (.keyError "code_language")
          | some lang =>
            let scriptPath :=
              if strContains lang "python" then codeDir ++ "/" ++ nodeNamePath ++ ".py"
              else if strContains lang "javascript" then codeDir ++ "/" ++ nodeNamePath ++ ".js"
              else codeDir ++ "/" ++ nodeNamePath ++ ".txt"
            .ok (fsWrite fs1 scriptPath (.text c), { data1 with code := some (.ref scriptPath) })
        | _ => .ok (fs1, data1)
      match afterCode with
      | .error e => .error e
      | .ok (fs2, data2) =>
        let nodeOut : Node := { n with data := data2 }
        .ok (fsWrite fs2 nodeFile (.yamlNode nodeOut), nodeFile, nodeOut)

/-- The whole node loop of `split_flow_to_files`: returns the filesystem,
the `{"ref": ...}` entries accumulated into `nodes` (dfac.py lines
206–208), and the post-call states of the caller's original node
objects. -/
def splitNodeList (nodesDir promptsDir codeDir : String) :
    List NodeEntry → FS → Except SplitError (FS × List NodeEntry × List Node)
  | [], fs => .ok (fs, [], [])
  | e :: rest, fs =>
    match splitNode nodesDir promptsDir codeDir e fs with
    | .error er => .error er
    | .ok (fs1, nodeFile, nodeOut) =>
      match splitNodeList nodesDir promptsDir codeDir rest fs1 with
      | .error er => .error er
      | .ok (fs2, refs, outs) => .ok (fs2, .ref nodeFile :: refs, nodeOut :: outs)

/-- Everything `split_flow_to_files` leaves behind: the filesystem, the
caller's `dsl` after the call (its node list now holds reference pointers,
dfac.py line 209), and the post-call states of the caller's original node
objects (their `data` mappings were rewritten in place through the aliasing
`node_data = dict(node)["data"]`, dfac.py line 177). -/
structure SplitResult where
  fs : FS
  dslAfter : Doc
  nodesAfter : List Node
deriving DecidableEq, Repr

/-- `split_flow_to_files(dsl, flow_dir)` (dfac.py lines 161–212).
Directory creation (`mkdir`) has no effect in this model.  After the node
loop, the input document's node list is replaced by the reference entries
(line 209) and the mutated document is written to `main.yaml` (lines
211–212). -/
def split_flow_to_files (dsl : Doc) (flowDir : String) (fs : FS) :
    Except SplitError SplitResult :=
  let nodesDir := flowDir ++ "/nodes"
  let promptsDir := flowDir ++ "/prompts"
  let codeDir := flowDir ++ "/code"
  match splitNodeList nodesDir promptsDir codeDir dsl.nodes fs with
  | .error e => .error e
  | .ok (fs1, refs, outs) =>
    let dslAfter := { dsl with nodes := refs }
    let fs2 := fsWrite fs1 (flowDir ++ "/main.yaml") (.yamlMain dslAfter)
    .ok { fs := fs2, dslAfter := dslAfter, nodesAfter := outs }

/-! ## Composer: `build_flow_from_files` (dfac.py lines 215–255) -/

/-- Errors raised by `build_flow_from_files`:
`fileNotFound p` models the `FileNotFoundError` raised by
`Path(p).read_text()` when `p` does not exist — it carries (only) the
missing path; `keyError k` models a `KeyError` (an inline node in the main
descriptor's node list has no `"ref"` key); `wrongShape p` stands for the
failures that follow loading a file whose content has a different shape
than expected (never reached in the scenarios considered here). -/
inductive BuildError where
  | fileNotFound (path : String)
  | keyError (k : String)
  | wrongShape (path : String)
deriving DecidableEq, Repr

/-- `Path(...).read_text()` (dfac.py lines 237 and 247). -/
def readTextFile (fs : FS) (p : String) : Except BuildError String :=
  match fsRead fs p with
  | some (.text s) => .ok s
  | some _ => .error (.wrongShape p)
  | none => .error (.fileNotFound p)

/-- The prompt-restoring loop (dfac.py lines 231–240): every entry whose
`text` is a `{"ref": ...}` mapping is replaced by the referenced file's
contents; inline text is kept. -/
def restorePromptList (fs : FS) :
    List PromptEntry → Except BuildError (List PromptEntry)
  | [] => .ok []
  | pe :: rest =>
    let step : Except BuildError PromptEntry :=
      match pe.text with
      | .ref p =>
        match readTextFile fs p with
        | .error e => .error e
        | .ok s => .ok { pe with text := .text s }
      | .text _ => .ok pe
    match step with
    | .error e => .error e
    | .ok pe' =>
      match restorePromptList fs rest with
      | .error e => .error e
      | .ok rest' => .ok (pe' :: rest')

/-- One iteration of the `for n in main["workflow"]["graph"]["nodes"]` loop
(dfac.py lines 223–253): `n["ref"]` (a `KeyError` on an inline node), load
the node descriptor, restore prompt texts, and restore `data.code` if it is
a reference pointer. -/
def buildNode (fs : FS) (entry : NodeEntry) : Except BuildError Node :=
  match entry with
  | .node _ => .error (.keyError "ref")
  | .ref p =>
    match fsRead fs p with
    | none => .error (.fileNotFound p)
    | some (.text _) => .error (.wrongShape p)
    | some (.yamlMain _) => .error (.wrongShape p)
    | some (.yamlNode n) =>
      let afterPrompts : Except BuildError NodeData :=
        match n.data.prompt_template with
        | none => .ok n.data
        | some pes =>
          match restorePromptList fs pes with
          | .error e => .error e
          | .ok pes' => .ok { n.data with prompt_template := some pes' }
      match afterPrompts with
      | .error e => .error e
      | .ok data1 =>
        match data1.code with
        | some (.ref q) =>
          match readTextFile fs q with
          | .error e => .error e
          | .ok s => .ok { n with data := { data1 with code := some (.text s) } }
        | _ => .ok { n with data := data1 }

/-- The node loop of `build_flow_from_files`, in main-descriptor order. -/
def buildNodeList (fs : FS) : List NodeEntry → Except BuildError (List Node)
  | [] => .ok []
  | e :: rest =>
    match buildNode fs e with
    | .error er => .error er
    | .ok n =>
      match buildNodeList fs rest with
      | .error er => .error er
      | .ok ns => .ok (n :: ns)

/-- `build_flow_from_files(flow_dir)` (dfac.py lines 215–255): load
`main.yaml`, rebuild every referenced node in listed order, and return the
document with the inline nodes in place of the reference list.  Any failure
aborts the whole composition — no partially-built document is returned. -/
def build_flow_from_files (flowDir : String) (fs : FS) : Except BuildError Doc :=
  match fsRead fs (flowDir ++ "/main.yaml") with
  | none => .error (.fileNotFound (flowDir ++ "/main.yaml"))
  | some (.text _) => .error (.wrongShape (flowDir ++ "/main.yaml"))
  | some (.yamlNode _) => .error (.wrongShape (flowDir ++ "/main.yaml"))
  | some (.yamlMain main) =>
    match buildNodeList fs main.nodes with
    | .error e => .error e
    | .ok ns => .ok { main with nodes := ns.map .node }

/-! ## Auxiliary definitions used only in statements and proofs -/

/-- The extension `split_flow_to_files` selects for an inline code block
(dfac.py lines 192–197): a `code_language` containing `"python"` gives
`.py`, else one containing `"javascript"` gives `.js`, else `.txt`. -/
def scriptExt (lang : String) : String :=
  if strContains lang "python" then ".py"
  else if strContains lang "javascript" then ".js"
  else ".txt"

/-- No two adjacent underscores. -/
def noDouble : List Char → Bool
  | [] => true
  | a :: l =>
    (match l.head? with
     | some b => !(a == '_' && b == '_')
     | none => true) && noDouble l

/-- The sequence of candidate names the `while` loop of
`allocate_dir_for_app` checks, starting at `dir` with next suffix
`suffix`, for `fuel` iterations. -/
def allocCands (base : String) : Nat → String → Nat → List String
  | 0, _, _ => []
  | fuel + 1, dir, suffix => dir :: allocCands base fuel (dirCandidate base suffix) (suffix + 1)

/-- The prompt entry is inline text (so `write_text` succeeds on it). -/
def inlinePrompt (pe : PromptEntry) : Bool :=
  match pe.text with
  | .text _ => true
  | .ref _ => false

/-- The node's text-bearing fields are inline: all prompt texts are
strings, and an inline code string has its sibling `code_language`. -/
def inlineNodeData (d : NodeData) : Bool :=
  (match d.prompt_template with
   | none => true
   | some pes => pes.all inlinePrompt) &&
  (match d.code with
   | none => true
   | some (.text _) => d.code_language.isSome
   | some (.ref _) => false)

/-- The entry is an inline node record with inline text fields. -/
def inlineEntry : NodeEntry → Bool
  | .node n => inlineNodeData n.data
  | .ref _ => false

/-- Every node of the document is inline (the shape of a freshly exported
workflow document, before any decomposition). -/
def inlineDoc (d : Doc) : Bool := d.nodes.all inlineEntry

/-- The sanitized base name a node's files are derived from. -/
def nodeBase (n : Node) : String := ensure_filename n.data.title

/-- The node descriptor path `nodes/<base>.yaml` chosen by
`split_flow_to_files`. -/
def nodeFileOf (nodesDir : String) (n : Node) : String :=
  nodesDir ++ "/" ++ nodeBase n ++ ".yaml"

/-- The prompt file name `<base>__<sanitize(role)>` (without directory or
extension). -/
def promptNameOf (base : String) (pe : PromptEntry) : String :=
  base ++ "__" ++ ensure_filename pe.role

/-- The prompt file path `prompts/<base>__<sanitize(role)>.md`. -/
def promptPathOf (promptsDir base : String) (pe : PromptEntry) : String :=
  promptsDir ++ "/" ++ promptNameOf base pe ++ ".md"

/-- The code file path `code/<base><ext>`. -/
def scriptPathOf (codeDir base lang : String) : String :=
  codeDir ++ "/" ++ base ++ scriptExt lang

/-- The files `split_flow_to_files` writes for one prompt list, in write
order. -/
def promptWritesOf (promptsDir base : String) : List PromptEntry → List (String × FData)
  | [] => []
  | pe :: rest =>
    match pe.text with
    | .text t => (promptPathOf promptsDir base pe, .text t) :: promptWritesOf promptsDir base rest
    | .ref _ => promptWritesOf promptsDir base rest

/-- The prompt entries after decomposition: each text replaced by a
reference pointer to its prompt file. -/
def outPromptsOf (promptsDir base : String) : List PromptEntry → List PromptEntry
  | [] => []
  | pe :: rest =>
    match pe.text with
    | .text _ =>
      { pe with text := .ref (promptPathOf promptsDir base pe) } :: outPromptsOf promptsDir base rest
    | .ref _ => pe :: outPromptsOf promptsDir base rest

/-- A node's `data` after decomposition: prompt texts and inline code
replaced by reference pointers. -/
def nodeDataOut (promptsDir codeDir base : String) (d : NodeData) : NodeData :=
  let d1 :=
    match d.prompt_template with
    | none => d
    | some pes => { d with prompt_template := some (outPromptsOf promptsDir base pes) }
  match d.code, d.code_language with
  | some (.text _), some lang => { d1 with code := some (.ref (scriptPathOf codeDir base lang)) }
  | _, _ => d1

/-- The node descriptor written to `nodes/<base>.yaml` (also the post-call
state of the caller's node object). -/
def nodeOutOf (promptsDir codeDir : String) (n : Node) : Node :=
  { n with data := nodeDataOut promptsDir codeDir (nodeBase n) n.data }

/-- All files written while decomposing one node, in write order: prompt
files, then the code file, then the node descriptor. -/
def nodeWritesOf (nodesDir promptsDir codeDir : String) (n : Node) : List (String × FData) :=
  (match n.data.prompt_template with
   | none => []
   | some pes => promptWritesOf promptsDir (nodeBase n) pes) ++
  (match n.data.code, n.data.code_language with
   | some (.text c), some lang => [(scriptPathOf codeDir (nodeBase n) lang, FData.text c)]
   | _, _ => []) ++
  [(nodeFileOf nodesDir n, FData.yamlNode (nodeOutOf promptsDir codeDir n))]

/-- Per-entry version of `nodeWritesOf` (a ref entry makes the split fail,
so its writes never happen). -/
def entryWritesOf (nodesDir promptsDir codeDir : String) : NodeEntry → List (String × FData)
  | .node n => nodeWritesOf nodesDir promptsDir codeDir n
  | .ref _ => []

/-- The reference entry that replaces a node in the main descriptor. -/
def entryRefOf (nodesDir : String) : NodeEntry → NodeEntry
  | .node n => .ref (nodeFileOf nodesDir n)
  | .ref p => .ref p

/-- Per-entry version of `nodeOutOf` (the value for a ref entry is
irrelevant: the split fails on it). -/
def entryOutOf (promptsDir codeDir : String) : NodeEntry → Node
  | .node n => nodeOutOf promptsDir codeDir n
  | .ref p => ⟨p, { title := p }⟩

/-- The node stored in an inline entry (the value for a ref entry is
irrelevant). -/
def entryNodeOf : NodeEntry → Node
  | .node n => n
  | .ref p => ⟨p, { title := p }⟩

/-- The caller's document after `split_flow_to_files` (also the content of
`main.yaml`). -/
def dslAfterOf (flowDir : String) (d : Doc) : Doc :=
  { d with nodes := d.nodes.map (entryRefOf (flowDir ++ "/nodes")) }

/-- Everything `split_flow_to_files` writes, in write order. -/
def docWritesOf (flowDir : String) (d : Doc) : List (String × FData) :=
  (d.nodes.flatMap (entryWritesOf (flowDir ++ "/nodes") (flowDir ++ "/prompts") (flowDir ++ "/code"))) ++
  [(flowDir ++ "/main.yaml", .yamlMain (dslAfterOf flowDir d))]

/-- The post-call states of the caller's node objects. -/
def outNodesOf (flowDir : String) (d : Doc) : List Node :=
  d.nodes.map (entryOutOf (flowDir ++ "/prompts") (flowDir ++ "/code"))

/-- Replay a list of writes onto a filesystem. -/
def applyWrites (ws : List (String × FData)) (fs : FS) : FS :=
  ws.foldl (fun f w => fsWrite f w.1 w.2) fs

/-- The sanitized base names of a document's nodes (for a ref entry, its
path — irrelevant, decomposition fails on it). -/
def docBases (d : Doc) : List String :=
  d.nodes.map (fun e => match e with
    | .node n => nodeBase n
    | .ref p => p)

/-- The prompt file names of one node. -/
def nodePromptNamesOf (n : Node) : List String :=
  match n.data.prompt_template with
  | none => []
  | some pes => pes.map (promptNameOf (nodeBase n))

/-- All prompt file names of the document, in order. -/
def docPromptNames (d : Doc) : List String :=
  d.nodes.flatMap (fun e => match e with
    | .node n => nodePromptNamesOf n
    | .ref _ => [])

/-- A concrete two-node inline document (distinct titles, two prompt roles,
a Python code block) used to instantiate the round-trip theorem. -/
def demoDoc : Doc :=
  ⟨"app",
    [.node ⟨"n1",
      { title := "T1"
        prompt_template := some [⟨"system", .text "Hello"⟩, ⟨"user", .text "World"⟩]
        code := some (.text "print(1)")
        code_language := some "python3" }⟩,
     .node ⟨"n2", { title := "T2" }⟩]⟩

/-- A single-node document whose prompt template uses the role `"user"`
twice with different texts — its two prompt entries map to the same prompt
file. -/
def dupRoleDoc : Doc :=
  ⟨"app",
    [.node ⟨"n1",
      { title := "t"
        prompt_template := some [⟨"user", .text "A"⟩, ⟨"user", .text "B"⟩] }⟩]⟩

/-- What composing the decomposition of `dupRoleDoc` actually returns: both
texts are the last-written `"B"`. -/
def dupRoleDocAfter : Doc :=
  ⟨"app",
    [.node ⟨"n1",
      { title := "t"
        prompt_template := some [⟨"user", .text "B"⟩, ⟨"user", .text "B"⟩] }⟩]⟩

/-- A node with an inline Python code block and no prompts. -/
def pyNode : Node :=
  ⟨"n1",
    { title := "T"
      code := some (.text "x=1")
      code_language := some "python3" }⟩

/-- A node whose `code` is a dangling reference pointer. -/
def brokenNode1 : Node :=
  ⟨"id1",
    { title := "a"
      code := some (.ref "flow/code/gone.py")
      code_language := some "python" }⟩

/-- A different node (different id and title) with the same dangling
`code` reference. -/
def brokenNode2 : Node :=
  ⟨"id2",
    { title := "b"
      code := some (.ref "flow/code/gone.py")
      code_language := some "python" }⟩

/-- A decomposed directory whose single node descriptor holds a dangling
code reference. -/
def brokenFs1 : FS :=
  [("flow/main.yaml", .yamlMain ⟨"app", [.ref "flow/nodes/a.yaml"]⟩),
   ("flow/nodes/a.yaml", .yamlNode brokenNode1)]

/-- The same directory shape but with a different owning node. -/
def brokenFs2 : FS :=
  [("flow/main.yaml", .yamlMain ⟨"app", [.ref "flow/nodes/a.yaml"]⟩),
   ("flow/nodes/a.yaml", .yamlNode brokenNode2)]

/-- An intact node: its only prompt reference resolves. -/
def intactNode : Node :=
  ⟨"id0",
    { title := "ok"
      prompt_template := some [⟨"system", .ref "flow/prompts/ok__system.md"⟩] }⟩

/-- A node whose second prompt entry's `text` is a dangling reference
pointer (its first prompt reference resolves). -/
def promptBrokenNode : Node :=
  ⟨"id3",
    { title := "c"
      prompt_template := some [⟨"system", .ref "flow/prompts/c__system.md"⟩,
        ⟨"user", .ref "flow/prompts/gone.md"⟩] }⟩

/-- A two-node decomposed directory: the first node is intact, the second
node's prompt template holds a dangling text reference. -/
def promptBrokenFs : FS :=
  [("flow/main.yaml", .yamlMain ⟨"app",
      [.ref "flow/nodes/ok.yaml", .ref "flow/nodes/c.yaml"]⟩),
   ("flow/nodes/ok.yaml", .yamlNode intactNode),
   ("flow/nodes/c.yaml", .yamlNode promptBrokenNode),
   ("flow/prompts/ok__system.md", .text "S"),
   ("flow/prompts/c__system.md", .text "C")]

/-! ## Sanitizer idempotence: lemma layer for `collapseUnderscores`,
`stripSpaceDot` and friends -/

theorem mem_of_mem_collapseUnderscores {c : Char} :
    ∀ {l : List Char}, c ∈ collapseUnderscores l → c ∈ l := by
  intro l
  induction l using collapseUnderscores.induct with
  | case1 => simp [collapseUnderscores]
  | case2 => simp [collapseUnderscores]
  | case3 c₁ c₂ rest h ih =>
    intro hm
    rw [collapseUnderscores, if_pos h] at hm
    exact List.mem_cons_of_mem c₁ (ih hm)
  | case4 c₁ c₂ rest h ih =>
    intro hm
    rw [collapseUnderscores, if_neg h] at hm
    rcases List.mem_cons.mp hm with hm | hm
    · exact hm ▸ List.mem_cons_self c₁ _
    · exact List.mem_cons_of_mem c₁ (ih hm)

theorem head?_collapseUnderscores :
    ∀ l : List Char, (collapseUnderscores l).head? = l.head? := by
  intro l
  induction l using collapseUnderscores.induct with
  | case1 => rfl
  | case2 => rfl
  | case3 c₁ c₂ rest h ih =>
    rw [collapseUnderscores, if_pos h, ih]
    simp [h.1, h.2]
  | case4 c₁ c₂ rest h ih =>
    rw [collapseUnderscores, if_neg h]
    rfl

theorem collapseUnderscores_ne_nil {l : List Char} (h : l ≠ []) :
    collapseUnderscores l ≠ [] := by
  intro hc
  have := head?_collapseUnderscores l
  rw [hc] at this
  cases l with
  | nil => exact h rfl
  | cons a t => simp at this

theorem getLast?_collapseUnderscores :
    ∀ l : List Char, (collapseUnderscores l).getLast? = l.getLast? := by
  intro l
  induction l using collapseUnderscores.induct with
  | case1 => rfl
  | case2 => rfl
  | case3 c₁ c₂ rest h ih =>
    rw [collapseUnderscores, if_pos h, ih]
    exact (List.getLast?_cons_cons ..).symm
  | case4 c₁ c₂ rest h ih =>
    rw [collapseUnderscores, if_neg h]
    have hne : collapseUnderscores (c₂ :: rest) ≠ [] := collapseUnderscores_ne_nil (by simp)
    cases hx : collapseUnderscores (c₂ :: rest) with
    | nil => exact absurd hx hne
    | cons b t =>
      rw [List.getLast?_cons_cons, ← hx, ih]
      exact (List.getLast?_cons_cons ..).symm

theorem underscore_mem_collapseUnderscores :
    ∀ {l : List Char}, '_' ∈ l → '_' ∈ collapseUnderscores l := by
  intro l
  induction l using collapseUnderscores.induct with
  | case1 => simp
  | case2 => simp [collapseUnderscores]
  | case3 c₁ c₂ rest h ih =>
    intro _
    rw [collapseUnderscores, if_pos h]
    exact ih (by simp [h.2])
  | case4 c₁ c₂ rest h ih =>
    intro hm
    rw [collapseUnderscores, if_neg h]
    rcases List.mem_cons.mp hm with hm | hm
    · exact hm ▸ List.mem_cons_self _ _
    · exact List.mem_cons_of_mem c₁ (ih hm)

theorem collapseUnderscores_eq_self_of_not_mem :
    ∀ {l : List Char}, '_' ∉ l → collapseUnderscores l = l := by
  intro l
  induction l using collapseUnderscores.induct with
  | case1 => intro _; rfl
  | case2 => intro _; rfl
  | case3 c₁ c₂ rest h ih =>
    intro hm
    exact absurd (by simp [h.1]) hm
  | case4 c₁ c₂ rest h ih =>
    intro hm
    rw [collapseUnderscores, if_neg h, ih (fun hx => hm (List.mem_cons_of_mem c₁ hx))]

theorem noDouble_collapseUnderscores :
    ∀ l : List Char, noDouble (collapseUnderscores l) = true := by
  intro l
  induction l using collapseUnderscores.induct with
  | case1 => rfl
  | case2 => rfl
  | case3 c₁ c₂ rest h ih =>
    rw [collapseUnderscores, if_pos h]
    exact ih
  | case4 c₁ c₂ rest h ih =>
    rw [collapseUnderscores, if_neg h]
    cases hx : collapseUnderscores (c₂ :: rest) with
    | nil => exact absurd hx (collapseUnderscores_ne_nil (by simp))
    | cons b t =>
      have hb : b = c₂ := by
        have := head?_collapseUnderscores (c₂ :: rest)
        rw [hx] at this
        simpa using this
      have ih' : noDouble (b :: t) = true := by rw [← hx]; exact ih
      unfold noDouble
      simp only [List.head?_cons, Bool.and_eq_true]
      refine ⟨?_, ih'⟩
      subst hb
      by_cases h₁ : c₁ = '_'
      · by_cases h₂ : b = '_'
        · exact absurd ⟨h₁, h₂⟩ h
        · simp [h₂]
      · simp [h₁]

theorem collapseUnderscores_eq_self_of_noDouble :
    ∀ {l : List Char}, noDouble l = true → collapseUnderscores l = l := by
  intro l
  induction l using collapseUnderscores.induct with
  | case1 => intro _; rfl
  | case2 => intro _; rfl
  | case3 c₁ c₂ rest h ih =>
    intro hnd
    unfold noDouble at hnd
    simp only [List.head?_cons, Bool.and_eq_true] at hnd
    rw [h.1, h.2] at hnd
    simp at hnd
  | case4 c₁ c₂ rest h ih =>
    intro hnd
    unfold noDouble at hnd
    simp only [Bool.and_eq_true] at hnd
    rw [collapseUnderscores, if_neg h, ih hnd.2]

theorem collapseUnderscores_idem (l : List Char) :
    collapseUnderscores (collapseUnderscores l) = collapseUnderscores l :=
  collapseUnderscores_eq_self_of_noDouble (noDouble_collapseUnderscores l)

theorem head?_dropWhile_false {p : Char → Bool} {l : List Char} {c : Char}
    (h : (l.dropWhile p).head? = some c) : p c = false := by
  have := List.head?_dropWhile_not p l
  rw [h] at this
  exact this

theorem dropWhile_eq_self_of_head {p : Char → Bool} {l : List Char}
    (h : ∀ c, l.head? = some c → p c = false) : l.dropWhile p = l := by
  cases l with
  | nil => rfl
  | cons a t =>
    have := h a rfl
    simp [List.dropWhile_cons, this]

theorem stripSpaceDot_subset (l : List Char) : stripSpaceDot l ⊆ l := by
  intro c hc
  unfold stripSpaceDot at hc
  rw [List.mem_reverse] at hc
  have h1 := (List.dropWhile_sublist isStripChar).mem hc
  rw [List.mem_reverse] at h1
  exact (List.dropWhile_sublist isStripChar).mem h1

theorem head?_stripSpaceDot_false {l : List Char} {c : Char}
    (h : (stripSpaceDot l).head? = some c) : isStripChar c = false := by
  unfold stripSpaceDot at h
  rw [List.head?_reverse] at h
  -- `c` is the last element of `dropWhile p ((dropWhile p l).reverse)`, a suffix of
  -- `(dropWhile p l).reverse`; so `c` is also the last element of that reverse,
  -- i.e. the head of `dropWhile p l`, which fails the predicate.
  obtain ⟨w, hw⟩ := List.dropWhile_suffix (l := (l.dropWhile isStripChar).reverse) isStripChar
  have hne : ((l.dropWhile isStripChar).reverse.dropWhile isStripChar) ≠ [] := by
    intro hnil
    rw [hnil] at h
    simp at h
  have hlast : ((l.dropWhile isStripChar).reverse).getLast? = some c := by
    rw [← hw, List.getLast?_append_of_ne_nil w hne]
    exact h
  rw [List.getLast?_reverse] at hlast
  exact head?_dropWhile_false hlast

theorem getLast?_stripSpaceDot_false {l : List Char} {c : Char}
    (h : (stripSpaceDot l).getLast? = some c) : isStripChar c = false := by
  unfold stripSpaceDot at h
  rw [List.getLast?_reverse] at h
  exact head?_dropWhile_false h

theorem stripSpaceDot_eq_self {l : List Char}
    (hh : ∀ c, l.head? = some c → isStripChar c = false)
    (hl : ∀ c, l.getLast? = some c → isStripChar c = false) :
    stripSpaceDot l = l := by
  unfold stripSpaceDot
  rw [dropWhile_eq_self_of_head hh]
  have : l.reverse.dropWhile isStripChar = l.reverse := by
    apply dropWhile_eq_self_of_head
    intro c hc
    rw [List.head?_reverse] at hc
    exact hl c hc
  rw [this, List.reverse_reverse]

theorem map_id_of_mem {f : Char → Char} :
    ∀ {l : List Char}, (∀ c ∈ l, f c = c) → l.map f = l := by
  intro l
  induction l with
  | nil => intro _; rfl
  | cons a t ih =>
    intro h
    simp only [List.map_cons, h a (by simp)]
    rw [ih (fun c hc => h c (by simp [hc]))]

theorem replaceInvalid_valid {l : List Char} :
    ∀ c ∈ replaceInvalid l, isInvalidChar c = false := by
  intro c hc
  unfold replaceInvalid at hc
  obtain ⟨d, _, hd⟩ := List.mem_map.mp hc
  by_cases h : isInvalidChar d
  · rw [if_pos h] at hd
    rw [← hd]
    decide
  · rw [if_neg h] at hd
    rw [← hd]
    simpa using h

theorem replaceInvalid_eq_self {l : List Char}
    (h : ∀ c ∈ l, isInvalidChar c = false) : replaceInvalid l = l :=
  map_id_of_mem (fun c hc => if_neg (by simp [h c hc]))

theorem substUnnamed_ne_nil (l : List Char) : substUnnamed l ≠ [] := by
  unfold substUnnamed
  split
  · decide
  · next h => simpa [List.isEmpty_iff] using h

theorem head?_substUnnamed_strip_false {l : List Char} {c : Char}
    (h : (substUnnamed (stripSpaceDot l)).head? = some c) : isStripChar c = false := by
  unfold substUnnamed at h
  split at h
  · have : c = 'u' := by
      have hu : ("unnamed".data).head? = some 'u' := rfl
      rw [hu] at h
      exact (Option.some.injEq .. ▸ h).symm
    rw [this]
    decide
  · exact head?_stripSpaceDot_false h

theorem getLast?_substUnnamed_strip_false {l : List Char} {c : Char}
    (h : (substUnnamed (stripSpaceDot l)).getLast? = some c) : isStripChar c = false := by
  unfold substUnnamed at h
  split at h
  · have : c = 'd' := by
      have hu : ("unnamed".data).getLast? = some 'd' := rfl
      rw [hu] at h
      exact (Option.some.injEq .. ▸ h).symm
    rw [this]
    decide
  · exact getLast?_stripSpaceDot_false h

theorem mem_substUnnamed {l : List Char} {c : Char} (h : c ∈ substUnnamed l) :
    c ∈ l ∨ c ∈ "unnamed".data := by
  unfold substUnnamed at h
  split at h
  · exact Or.inr h
  · exact Or.inl h

theorem reservedGuard_ne_nil {l : List Char} (h : l ≠ []) : reservedGuard l ≠ [] := by
  unfold reservedGuard
  split
  · simp
  · exact h

theorem head?_reservedGuard {l : List Char} (h : l ≠ []) :
    (reservedGuard l).head? = l.head? := by
  unfold reservedGuard
  split
  · exact List.head?_append_of_ne_nil l h
  · rfl

theorem getLast?_reservedGuard {l : List Char} {c : Char}
    (h : (reservedGuard l).getLast? = some c) : c = '_' ∨ l.getLast? = some c := by
  unfold reservedGuard at h
  split at h
  · rw [List.getLast?_concat] at h
    exact Or.inl (Option.some_inj.mp h).symm
  · exact Or.inr h

theorem mem_reservedGuard {l : List Char} {c : Char} (h : c ∈ reservedGuard l) :
    c ∈ l ∨ c = '_' := by
  unfold reservedGuard at h
  split at h
  · rcases List.mem_append.mp h with h | h
    · exact Or.inl h
    · simp at h
      exact Or.inr h
  · exact Or.inl h

theorem reserved_no_underscore :
    ∀ r ∈ WINDOWS_RESERVED_NAMES, '_' ∉ r.data := by decide

theorem reserved_getLast_ne_underscore :
    ∀ r ∈ WINDOWS_RESERVED_NAMES, r.data.getLast? ≠ some '_' := by decide

theorem contains_reserved_iff {s : String} :
    WINDOWS_RESERVED_NAMES.contains s = true ↔ s ∈ WINDOWS_RESERVED_NAMES := by
  constructor
  · intro h
    obtain ⟨r, hr, hbeq⟩ := List.contains_iff_exists_mem_beq.mp h
    exact (eq_of_beq hbeq) ▸ hr
  · intro h
    exact List.contains_iff_exists_mem_beq.mpr ⟨s, h, by simp⟩

/-- The case-insensitive reserved-name check of step 5 can never fire on a
sanitizer output: if step 5 appended an underscore the output ends in `_`,
and otherwise the collapsed output passes the same check step 5 already
passed — reserved names contain no underscore at all. -/
theorem reserved_check_false_on_output (m : List Char) :
    WINDOWS_RESERVED_NAMES.contains
      (String.mk (upperChars (collapseUnderscores (reservedGuard m)))) = false := by
  by_contra hcontra
  have hcon : WINDOWS_RESERVED_NAMES.contains
      (String.mk (upperChars (collapseUnderscores (reservedGuard m)))) = true := by
    revert hcontra
    cases WINDOWS_RESERVED_NAMES.contains
      (String.mk (upperChars (collapseUnderscores (reservedGuard m)))) <;> simp
  obtain ⟨r, hrmem, hbeq⟩ := List.contains_iff_exists_mem_beq.mp hcon
  have hr : String.mk (upperChars (collapseUnderscores (reservedGuard m))) = r :=
    eq_of_beq hbeq
  have hrdata : upperChars (collapseUnderscores (reservedGuard m)) = r.data :=
    congrArg String.data hr
  unfold reservedGuard at hrdata
  by_cases hR : WINDOWS_RESERVED_NAMES.contains (String.mk (upperChars m)) = true
  · -- step 5 fired: the output ends in '_', but no reserved name does
    rw [if_pos hR] at hrdata
    have hlast : (collapseUnderscores (m ++ ['_'])).getLast? = some '_' := by
      rw [getLast?_collapseUnderscores, List.getLast?_concat]
    have : r.data.getLast? = some '_' := by
      rw [← hrdata, upperChars, List.getLast?_map, hlast]
      rfl
    exact reserved_getLast_ne_underscore r hrmem this
  · rw [if_neg hR] at hrdata
    by_cases hU : '_' ∈ m
    · -- the output still contains '_', but reserved names never do
      have h1 : '_' ∈ collapseUnderscores m := underscore_mem_collapseUnderscores hU
      have h2 : '_' ∈ upperChars (collapseUnderscores m) :=
        List.mem_map.mpr ⟨'_', h1, by decide⟩
      rw [hrdata] at h2
      exact reserved_no_underscore r hrmem h2
    · -- no '_' at all: collapsing is the identity and step 5's own check failed
      rw [collapseUnderscores_eq_self_of_not_mem hU] at hrdata
      apply hR
      apply List.contains_iff_exists_mem_beq.mpr
      refine ⟨r, hrmem, ?_⟩
      have : String.mk (upperChars m) = r := String.ext hrdata
      simp [this]

/-- Characters of a sanitizer output are never in the illegal class. -/
theorem sanitizeChars_valid {l : List Char} :
    ∀ c ∈ sanitizeChars l, isInvalidChar c = false := by
  intro c hc
  unfold sanitizeChars at hc
  have h1 := mem_of_mem_collapseUnderscores hc
  rcases mem_reservedGuard h1 with h2 | h2
  · rcases mem_substUnnamed h2 with h3 | h3
    · exact replaceInvalid_valid c (stripSpaceDot_subset _ h3)
    · have hun : ∀ c ∈ "unnamed".data, isInvalidChar c = false := by decide
      exact hun c h3
  · rw [h2]
    decide

theorem sanitizeChars_ne_nil (l : List Char) : sanitizeChars l ≠ [] := by
  unfold sanitizeChars
  exact collapseUnderscores_ne_nil (reservedGuard_ne_nil (substUnnamed_ne_nil _))

theorem head?_sanitizeChars_false {l : List Char} {c : Char}
    (h : (sanitizeChars l).head? = some c) : isStripChar c = false := by
  unfold sanitizeChars at h
  rw [head?_collapseUnderscores, head?_reservedGuard (substUnnamed_ne_nil _)] at h
  exact head?_substUnnamed_strip_false h

theorem getLast?_sanitizeChars_false {l : List Char} {c : Char}
    (h : (sanitizeChars l).getLast? = some c) : isStripChar c = false := by
  unfold sanitizeChars at h
  rw [getLast?_collapseUnderscores] at h
  rcases getLast?_reservedGuard h with h | h
  · rw [h]
    decide
  · exact getLast?_substUnnamed_strip_false h

theorem reserved_check_false_sanitizeChars (l : List Char) :
    WINDOWS_RESERVED_NAMES.contains (String.mk (upperChars (sanitizeChars l))) = false :=
  reserved_check_false_on_output _

theorem noDouble_sanitizeChars (l : List Char) : noDouble (sanitizeChars l) = true :=
  noDouble_collapseUnderscores _

/-- A list that already has all the structural properties of a sanitizer
output is a fixed point of `sanitizeChars`. -/
theorem sanitizeChars_eq_self {m : List Char}
    (hval : ∀ c ∈ m, isInvalidChar c = false)
    (hh : ∀ c, m.head? = some c → isStripChar c = false)
    (hl : ∀ c, m.getLast? = some c → isStripChar c = false)
    (hne : m ≠ [])
    (hres : WINDOWS_RESERVED_NAMES.contains (String.mk (upperChars m)) = false)
    (hnd : noDouble m = true) :
    sanitizeChars m = m := by
  unfold sanitizeChars
  rw [replaceInvalid_eq_self hval, stripSpaceDot_eq_self hh hl]
  unfold substUnnamed
  rw [if_neg (by simpa [List.isEmpty_iff] using hne)]
  unfold reservedGuard
  rw [if_neg (by rw [hres]; exact Bool.false_ne_true)]
  exact collapseUnderscores_eq_self_of_noDouble hnd

theorem sanitizeChars_idem (l : List Char) :
    sanitizeChars (sanitizeChars l) = sanitizeChars l :=
  sanitizeChars_eq_self sanitizeChars_valid
    (fun _ h => head?_sanitizeChars_false h)
    (fun _ h => getLast?_sanitizeChars_false h)
    (sanitizeChars_ne_nil l)
    (reserved_check_false_sanitizeChars l)
    (noDouble_sanitizeChars l)

/-! ## Injectivity of `Nat.repr`

The allocation loop's candidates `base`, `base_2`, `base_3`, … are pairwise
distinct because decimal rendering of naturals is injective; that is what
makes the `while` loop of `allocate_dir_for_app` terminate on a free name
within `|exists| + 1` iterations. -/

theorem toDigitsCore_eq_digits (fuel : Nat) :
    ∀ (n : Nat) (ds : List Char), 0 < n → n ≤ fuel →
      Nat.toDigitsCore 10 fuel n ds =
        ((Nat.digits 10 n).map Nat.digitChar).reverse ++ ds := by
  induction fuel with
  | zero => intro n ds hn hfuel; omega
  | succ f ih =>
    intro n ds hn hfuel
    have hdig : Nat.digits 10 n = n % 10 :: Nat.digits 10 (n / 10) :=
      Nat.digits_def' (by norm_num) hn
    by_cases hq : n / 10 = 0
    · simp only [Nat.toDigitsCore, hq, if_pos rfl]
      rw [hdig, hq]
      simp
    · have hq' : 0 < n / 10 := Nat.pos_of_ne_zero hq
      have hlt : n / 10 < n := Nat.div_lt_self hn (by norm_num)
      have : Nat.toDigitsCore 10 (f + 1) n ds =
          Nat.toDigitsCore 10 f (n / 10) (Nat.digitChar (n % 10) :: ds) := by
        simp only [Nat.toDigitsCore, if_neg hq]
      rw [this, ih (n / 10) _ hq' (by omega), hdig]
      simp

theorem toDigits_eq_digits (n : Nat) (hn : 0 < n) :
    Nat.toDigits 10 n = ((Nat.digits 10 n).map Nat.digitChar).reverse := by
  unfold Nat.toDigits
  rw [toDigitsCore_eq_digits (n + 1) n [] hn (by omega)]
  simp

theorem digitChar_inj_lt_ten :
    ∀ a < 10, ∀ b < 10, Nat.digitChar a = Nat.digitChar b → a = b := by decide

theorem map_digitChar_inj :
    ∀ l₁ l₂ : List Nat, (∀ x ∈ l₁, x < 10) → (∀ x ∈ l₂, x < 10) →
      l₁.map Nat.digitChar = l₂.map Nat.digitChar → l₁ = l₂ := by
  intro l₁
  induction l₁ with
  | nil => intro l₂ _ _ h; cases l₂ <;> simp_all
  | cons a t ih =>
    intro l₂ h₁ h₂ h
    cases l₂ with
    | nil => simp_all
    | cons b t₂ =>
      simp only [List.map_cons, List.cons.injEq] at h
      have ha : a = b :=
        digitChar_inj_lt_ten a (h₁ a (by simp)) b (h₂ b (by simp)) h.1
      have ht : t = t₂ :=
        ih t₂ (fun x hx => h₁ x (by simp [hx])) (fun x hx => h₂ x (by simp [hx])) h.2
      rw [ha, ht]

theorem Nat_repr_injective : Function.Injective Nat.repr := by
  intro m n h
  have hdata : (Nat.toDigits 10 m) = (Nat.toDigits 10 n) := by
    have := congrArg String.data h
    simpa [Nat.repr, List.asString] using this
  rcases Nat.eq_zero_or_pos m with hm | hm <;> rcases Nat.eq_zero_or_pos n with hn | hn
  · omega
  · exfalso
    rw [hm, toDigits_eq_digits n hn] at hdata
    have h0 : Nat.toDigits 10 0 = ['0'] := rfl
    rw [h0] at hdata
    have hmap : (Nat.digits 10 n).map Nat.digitChar = ['0'] := by
      have := congrArg List.reverse hdata
      simp at this
      exact this.symm
    have hd : Nat.digits 10 n = [0] := by
      apply map_digitChar_inj _ [0] (fun x hx => Nat.digits_lt_base (by norm_num) hx)
        (by simp)
      rw [hmap]; decide
    have := Nat.ofDigits_digits 10 n
    rw [hd] at this
    simp [Nat.ofDigits] at this
    omega
  · exfalso
    rw [hn, toDigits_eq_digits m hm] at hdata
    have h0 : Nat.toDigits 10 0 = ['0'] := rfl
    rw [h0] at hdata
    have hmap : (Nat.digits 10 m).map Nat.digitChar = ['0'] := by
      have := congrArg List.reverse hdata
      simpa using this
    have hd : Nat.digits 10 m = [0] := by
      apply map_digitChar_inj _ [0] (fun x hx => Nat.digits_lt_base (by norm_num) hx)
        (by simp)
      rw [hmap]; decide
    have := Nat.ofDigits_digits 10 m
    rw [hd] at this
    simp [Nat.ofDigits] at this
    omega
  · rw [toDigits_eq_digits m hm, toDigits_eq_digits n hn] at hdata
    have : (Nat.digits 10 m).map Nat.digitChar = (Nat.digits 10 n).map Nat.digitChar := by
      have := congrArg List.reverse hdata
      simpa using this
    have hd := map_digitChar_inj _ _ (fun x hx => Nat.digits_lt_base (by norm_num) hx)
      (fun x hx => Nat.digits_lt_base (by norm_num) hx) this
    exact Nat.digits_inj_iff.mp hd

/-! ## Properties of the allocation loop -/

theorem dirCandidate_inj (base : String) {j k : Nat}
    (h : dirCandidate base j = dirCandidate base k) : j = k := by
  unfold dirCandidate at h
  have := congrArg String.data h
  simp only [String.data_append] at this
  have := List.append_cancel_left this
  exact Nat_repr_injective (String.ext this)

theorem base_ne_dirCandidate (base : String) (k : Nat) :
    base ≠ dirCandidate base k := by
  intro h
  unfold dirCandidate at h
  have := congrArg String.data h
  simp only [String.data_append] at this
  have h2 : base.data ++ ([] : List Char) = base.data ++ ("_".data ++ (Nat.repr k).data) := by
    simp only [List.append_nil, ← List.append_assoc]
    exact this
  have h3 : ([] : List Char) = '_' :: (Nat.repr k).data := List.append_cancel_left h2
  simp at h3

theorem allocCands_length (base : String) :
    ∀ fuel dir suffix, (allocCands base fuel dir suffix).length = fuel := by
  intro fuel
  induction fuel with
  | zero => intro dir suffix; rfl
  | succ f ih => intro dir suffix; simp [allocCands, ih]

theorem mem_allocCands_tail (base : String) :
    ∀ fuel s x, x ∈ allocCands base fuel (dirCandidate base s) (s + 1) →
      ∃ k, s ≤ k ∧ x = dirCandidate base k := by
  intro fuel
  induction fuel with
  | zero => intro s x hx; simp [allocCands] at hx
  | succ f ih =>
    intro s x hx
    simp only [allocCands, List.mem_cons] at hx
    rcases hx with hx | hx
    · exact ⟨s, le_refl s, hx⟩
    · obtain ⟨k, hk, hkx⟩ := ih (s + 1) x hx
      exact ⟨k, by omega, hkx⟩

theorem nodup_allocCands_tail (base : String) :
    ∀ fuel s, (allocCands base fuel (dirCandidate base s) (s + 1)).Nodup := by
  intro fuel
  induction fuel with
  | zero => intro s; simp [allocCands]
  | succ f ih =>
    intro s
    simp only [allocCands, List.nodup_cons]
    refine ⟨?_, ih (s + 1)⟩
    intro hmem
    obtain ⟨k, hk, hkx⟩ := mem_allocCands_tail base f (s + 1) _ hmem
    have := dirCandidate_inj base hkx
    omega

theorem nodup_allocCands (base : String) (fuel : Nat) :
    (allocCands base (fuel + 1) base 2).Nodup := by
  simp only [allocCands, List.nodup_cons]
  constructor
  · intro hmem
    have h2 : allocCands base fuel (dirCandidate base 2) 3 =
        allocCands base fuel (dirCandidate base 2) (2 + 1) := rfl
    rw [h2] at hmem
    obtain ⟨k, _, hkx⟩ := mem_allocCands_tail base fuel 2 base hmem
    exact base_ne_dirCandidate base k hkx
  · exact nodup_allocCands_tail base fuel 2

theorem allocDirLoop_not_mem_of_cands (base : String) (exs : List String) :
    ∀ fuel dir suffix, ¬ (allocCands base fuel dir suffix ⊆ exs) →
      allocDirLoop base exs fuel dir suffix ∉ exs := by
  intro fuel
  induction fuel with
  | zero => intro dir suffix h; exact absurd (by simp [allocCands]) h
  | succ f ih =>
    intro dir suffix h
    by_cases hdir : dir ∈ exs
    · simp only [allocDirLoop, if_pos hdir]
      apply ih
      intro hsub
      apply h
      intro x hx
      rcases List.mem_cons.mp hx with hx | hx
      · exact hx ▸ hdir
      · exact hsub hx
    · simpa only [allocDirLoop, if_neg hdir] using hdir

/-- With fuel `exs.length + 1` the candidate list is longer than `exs` and
duplicate-free, so it cannot be contained in `exs`. -/
theorem allocCands_not_subset (base : String) (exs : List String) :
    ¬ (allocCands base (exs.length + 1) base 2 ⊆ exs) := by
  intro hsub
  have hnd := nodup_allocCands base exs.length
  have hsp := List.subperm_of_subset hnd hsub
  have := hsp.length_le
  rw [allocCands_length] at this
  omega

/-- The `while` loop of `allocate_dir_for_app` always exits on a name that
is not yet used. -/
theorem allocDirLoop_not_mem (base : String) (exs : List String) :
    allocDirLoop base exs (exs.length + 1) base 2 ∉ exs :=
  allocDirLoop_not_mem_of_cands base exs _ base 2 (allocCands_not_subset base exs)

theorem allocDirLoop_least (base : String) (exs : List String) :
    ∀ fuel dir suffix, ¬ (allocCands base fuel dir suffix ⊆ exs) →
      (dir ∉ exs ∧ allocDirLoop base exs fuel dir suffix = dir) ∨
      (dir ∈ exs ∧ ∃ k, suffix ≤ k ∧
        allocDirLoop base exs fuel dir suffix = dirCandidate base k ∧
        dirCandidate base k ∉ exs ∧
        ∀ j, suffix ≤ j → j < k → dirCandidate base j ∈ exs) := by
  intro fuel
  induction fuel with
  | zero => intro dir suffix h; exact absurd (by simp [allocCands]) h
  | succ f ih =>
    intro dir suffix h
    by_cases hdir : dir ∈ exs
    · right
      refine ⟨hdir, ?_⟩
      have hrec : ¬ (allocCands base f (dirCandidate base suffix) (suffix + 1) ⊆ exs) := by
        intro hsub
        apply h
        intro x hx
        rcases List.mem_cons.mp hx with hx | hx
        · exact hx ▸ hdir
        · exact hsub hx
      rcases ih (dirCandidate base suffix) (suffix + 1) hrec with ⟨hfree, heq⟩ | ⟨hmem, k, hk, heq, hfree, hall⟩
      · refine ⟨suffix, le_refl _, ?_, hfree, ?_⟩
        · simpa only [allocDirLoop, if_pos hdir] using heq
        · intro j h₁ h₂; omega
      · refine ⟨k, by omega, ?_, hfree, ?_⟩
        · simpa only [allocDirLoop, if_pos hdir] using heq
        · intro j h₁ h₂
          rcases Nat.lt_or_ge j (suffix + 1) with hj | hj
          · have : j = suffix := by omega
            exact this ▸ hmem
          · exact hall j hj h₂
    · left
      exact ⟨hdir, by simp only [allocDirLoop, if_neg hdir]⟩

/-! ## Characterization of `split_flow_to_files` on inline documents -/

theorem scriptPath_ite_eq (codeDir base lang : String) :
    (if strContains lang "python" then codeDir ++ "/" ++ base ++ ".py"
     else if strContains lang "javascript" then codeDir ++ "/" ++ base ++ ".js"
     else codeDir ++ "/" ++ base ++ ".txt") =
      codeDir ++ "/" ++ base ++ scriptExt lang := by
  unfold scriptExt
  split_ifs <;> rfl

theorem applyWrites_append (ws₁ ws₂ : List (String × FData)) (fs : FS) :
    applyWrites (ws₁ ++ ws₂) fs = applyWrites ws₂ (applyWrites ws₁ fs) :=
  List.foldl_append ..

theorem splitPromptList_eq (promptsDir base : String) :
    ∀ (pes : List PromptEntry) (fs : FS), pes.all inlinePrompt = true →
      splitPromptList promptsDir base pes fs =
        .ok (applyWrites (promptWritesOf promptsDir base pes) fs,
          outPromptsOf promptsDir base pes) := by
  intro pes
  induction pes with
  | nil => intro fs _; rfl
  | cons pe rest ih =>
    intro fs hall
    simp only [List.all_cons, Bool.and_eq_true] at hall
    cases hpe : pe.text with
    | ref p =>
      unfold inlinePrompt at hall
      rw [hpe] at hall
      simp at hall
    | text t =>
      have ih' : ∀ fs' : FS, splitPromptList promptsDir base rest fs' =
          .ok (applyWrites (promptWritesOf promptsDir base rest) fs',
            outPromptsOf promptsDir base rest) := fun fs' => ih fs' hall.2
      simp only [splitPromptList, promptWritesOf, outPromptsOf, hpe, ih']
      rfl

theorem splitNode_eq (nodesDir promptsDir codeDir : String) (n : Node) (fs : FS)
    (h : inlineNodeData n.data = true) :
    splitNode nodesDir promptsDir codeDir (.node n) fs =
      .ok (applyWrites (nodeWritesOf nodesDir promptsDir codeDir n) fs,
        nodeFileOf nodesDir n, nodeOutOf promptsDir codeDir n) := by
  unfold inlineNodeData at h
  rw [Bool.and_eq_true] at h
  obtain ⟨hp, hc⟩ := h
  cases hpt : n.data.prompt_template with
  | none =>
    cases hcode : n.data.code with
    | none =>
      simp only [splitNode, nodeWritesOf, nodeOutOf, nodeDataOut, hpt, hcode,
        applyWrites_append]
      rfl
    | some tv =>
      rw [hcode] at hc
      cases tv with
      | ref q => simp at hc
      | text c =>
        cases hlang : n.data.code_language with
        | none => rw [hlang] at hc; simp at hc
        | some lang =>
          simp only [splitNode, nodeWritesOf, nodeOutOf, nodeDataOut, hpt, hcode, hlang,
            scriptPath_ite_eq, applyWrites_append]
          rfl
  | some pes =>
    rw [hpt] at hp
    have hps := splitPromptList_eq promptsDir (ensure_filename n.data.title) pes fs hp
    cases hcode : n.data.code with
    | none =>
      simp only [splitNode, nodeWritesOf, nodeOutOf, nodeDataOut, hpt, hcode, hps,
        applyWrites_append]
      rfl
    | some tv =>
      rw [hcode] at hc
      cases tv with
      | ref q => simp at hc
      | text c =>
        cases hlang : n.data.code_language with
        | none => rw [hlang] at hc; simp at hc
        | some lang =>
          simp only [splitNode, nodeWritesOf, nodeOutOf, nodeDataOut, hpt, hcode, hlang,
            hps, scriptPath_ite_eq, applyWrites_append]
          rfl

theorem splitNodeList_eq (nodesDir promptsDir codeDir : String) :
    ∀ (entries : List NodeEntry) (fs : FS), entries.all inlineEntry = true →
      splitNodeList nodesDir promptsDir codeDir entries fs =
        .ok (applyWrites (entries.flatMap (entryWritesOf nodesDir promptsDir codeDir)) fs,
          entries.map (entryRefOf nodesDir),
          entries.map (entryOutOf promptsDir codeDir)) := by
  intro entries
  induction entries with
  | nil => intro fs _; rfl
  | cons e rest ih =>
    intro fs hall
    simp only [List.all_cons, Bool.and_eq_true] at hall
    cases e with
    | ref p => simp [inlineEntry] at hall
    | node n =>
      have ih' : ∀ fs' : FS, splitNodeList nodesDir promptsDir codeDir rest fs' =
          .ok (applyWrites (rest.flatMap (entryWritesOf nodesDir promptsDir codeDir)) fs',
            rest.map (entryRefOf nodesDir), rest.map (entryOutOf promptsDir codeDir)) :=
        fun fs' => ih fs' hall.2
      simp only [splitNodeList, splitNode_eq nodesDir promptsDir codeDir n fs hall.1, ih',
        List.flatMap_cons, applyWrites_append]
      rfl

theorem split_flow_to_files_eq (d : Doc) (flowDir : String) (fs : FS)
    (h : inlineDoc d = true) :
    split_flow_to_files d flowDir fs =
      .ok ⟨applyWrites (docWritesOf flowDir d) fs, dslAfterOf flowDir d,
        outNodesOf flowDir d⟩ := by
  unfold split_flow_to_files
  simp only [splitNodeList_eq (flowDir ++ "/nodes") (flowDir ++ "/prompts")
    (flowDir ++ "/code") d.nodes fs h]
  unfold docWritesOf dslAfterOf outNodesOf
  rw [applyWrites_append]
  rfl

/-! ## Reading back written files -/

theorem fsRead_fsWrite_self (fs : FS) (p : String) (d : FData) :
    fsRead (fsWrite fs p d) p = some d := by
  unfold fsRead fsWrite
  rw [List.find?_cons_of_pos _ (by simp)]
  rfl

theorem fsRead_fsWrite_ne (fs : FS) {p q : String} (h : q ≠ p) (d : FData) :
    fsRead (fsWrite fs q d) p = fsRead fs p := by
  unfold fsRead fsWrite
  rw [List.find?_cons_of_neg _ (by simp [h])]

theorem fsRead_applyWrites_not_mem :
    ∀ (ws : List (String × FData)) (fs : FS) (p : String),
      p ∉ ws.map Prod.fst → fsRead (applyWrites ws fs) p = fsRead fs p := by
  intro ws
  induction ws with
  | nil => intro fs p _; rfl
  | cons w rest ih =>
    intro fs p h
    simp only [List.map_cons, List.mem_cons] at h
    push_neg at h
    have step : applyWrites (w :: rest) fs = applyWrites rest (fsWrite fs w.1 w.2) := rfl
    rw [step, ih _ p h.2, fsRead_fsWrite_ne fs (Ne.symm h.1)]

theorem fsRead_applyWrites_mem :
    ∀ (ws : List (String × FData)) (fs : FS) (p : String) (d : FData),
      (ws.map Prod.fst).Nodup → (p, d) ∈ ws →
      fsRead (applyWrites ws fs) p = some d := by
  intro ws
  induction ws with
  | nil => intro fs p d _ hmem; simp at hmem
  | cons w rest ih =>
    intro fs p d hnd hmem
    have step : applyWrites (w :: rest) fs = applyWrites rest (fsWrite fs w.1 w.2) := rfl
    simp only [List.map_cons, List.nodup_cons] at hnd
    rcases List.mem_cons.mp hmem with hm | hm
    · rw [← hm] at hnd
      rw [step, ← hm, fsRead_applyWrites_not_mem rest _ p hnd.1]
      exact fsRead_fsWrite_self fs p d
    · rw [step]
      exact ih _ p d hnd.2 hm

/-! ## Composition restores an inline document -/

theorem restorePromptList_eq (promptsDir base : String) :
    ∀ (pes : List PromptEntry) (fs : FS),
      pes.all inlinePrompt = true →
      (∀ w ∈ promptWritesOf promptsDir base pes, fsRead fs w.1 = some w.2) →
      restorePromptList fs (outPromptsOf promptsDir base pes) = .ok pes := by
  intro pes
  induction pes with
  | nil => intro fs _ _; rfl
  | cons pe rest ih =>
    intro fs hall hread
    simp only [List.all_cons, Bool.and_eq_true] at hall
    obtain ⟨role, tx⟩ := pe
    cases tx with
    | ref p => simp [inlinePrompt] at hall
    | text t =>
      have hr : fsRead fs (promptPathOf promptsDir base ⟨role, .text t⟩) = some (.text t) :=
        hread _ (by
          simp only [promptWritesOf]
          exact List.mem_cons_self _ _)
      have hrest : ∀ w ∈ promptWritesOf promptsDir base rest, fsRead fs w.1 = some w.2 :=
        fun w hw => hread w (by
          simp only [promptWritesOf]
          exact List.mem_cons_of_mem _ hw)
      simp only [outPromptsOf, restorePromptList, readTextFile, hr, ih fs hall.2 hrest]

theorem buildNode_eq (nodesDir promptsDir codeDir : String) (n : Node) (fs : FS)
    (h : inlineNodeData n.data = true)
    (hread : ∀ w ∈ nodeWritesOf nodesDir promptsDir codeDir n, fsRead fs w.1 = some w.2) :
    buildNode fs (.ref (nodeFileOf nodesDir n)) = .ok n := by
  have hnode : fsRead fs (nodeFileOf nodesDir n) =
      some (.yamlNode (nodeOutOf promptsDir codeDir n)) :=
    hread _ (by
      simp only [nodeWritesOf]
      exact List.mem_append.mpr (Or.inr (List.mem_cons_self _ _)))
  obtain ⟨nid, ndata⟩ := n
  obtain ⟨title, pt, code, lang⟩ := ndata
  unfold inlineNodeData at h
  rw [Bool.and_eq_true] at h
  obtain ⟨hp, hc⟩ := h
  cases pt with
  | none =>
    cases code with
    | none =>
      simp only [nodeOutOf, nodeDataOut, nodeBase] at hnode
      simp only [buildNode, hnode]
    | some tv =>
      cases tv with
      | ref q => simp at hc
      | text c =>
        cases lang with
        | none => simp at hc
        | some lg =>
          have hcread : fsRead fs (scriptPathOf codeDir (ensure_filename title) lg) =
              some (.text c) :=
            hread _ (by
              simp only [nodeWritesOf, nodeBase]
              exact List.mem_append.mpr (Or.inl (List.mem_append.mpr (Or.inr
                (List.mem_cons_self _ _)))))
          simp only [nodeOutOf, nodeDataOut, nodeBase] at hnode
          simp only [buildNode, hnode, readTextFile, hcread]
  | some pes =>
    simp only at hp
    have hpread : ∀ w ∈ promptWritesOf promptsDir (ensure_filename title) pes,
        fsRead fs w.1 = some w.2 :=
      fun w hw => hread w (by
        simp only [nodeWritesOf, nodeBase]
        exact List.mem_append.mpr (Or.inl (List.mem_append.mpr (Or.inl hw))))
    have hrestore := restorePromptList_eq promptsDir (ensure_filename title) pes fs hp hpread
    cases code with
    | none =>
      simp only [nodeOutOf, nodeDataOut, nodeBase] at hnode
      simp only [buildNode, hnode, hrestore]
    | some tv =>
      cases tv with
      | ref q => simp at hc
      | text c =>
        cases lang with
        | none => simp at hc
        | some lg =>
          have hcread : fsRead fs (scriptPathOf codeDir (ensure_filename title) lg) =
              some (.text c) :=
            hread _ (by
              simp only [nodeWritesOf, nodeBase]
              exact List.mem_append.mpr (Or.inl (List.mem_append.mpr (Or.inr
                (List.mem_cons_self _ _)))))
          simp only [nodeOutOf, nodeDataOut, nodeBase] at hnode
          simp only [buildNode, hnode, hrestore, readTextFile, hcread]

/-! ## Distinctness of the written paths

The four path categories (`main.yaml`, `nodes/…`, `prompts/…`, `code/…`)
never collide because they differ right after the flow directory; paths of
one category collide exactly when their variable parts do. -/

theorem data_tail_head_ne {A B : List Char} (hne : A.tail.head? ≠ B.tail.head?) :
    ∀ p : List Char, p ++ A ≠ p ++ B :=
  fun _ h => hne (congrArg (fun l => l.tail.head?) (List.append_cancel_left h))

theorem nodePath_ne_promptPath (flowDir x y : String) :
    flowDir ++ "/nodes" ++ "/" ++ x ++ ".yaml" ≠ flowDir ++ "/prompts" ++ "/" ++ y ++ ".md" := by
  intro heq
  have hd := congrArg String.data heq
  simp only [String.data_append, List.append_assoc] at hd
  exact data_tail_head_ne (by
    intro hh
    simp only [List.cons_append, List.tail_cons, List.head?_cons] at hh
    exact absurd (Option.some.inj hh) (by decide)) flowDir.data hd

theorem nodePath_ne_codePath (flowDir x y l : String) :
    flowDir ++ "/nodes" ++ "/" ++ x ++ ".yaml" ≠ flowDir ++ "/code" ++ "/" ++ y ++ scriptExt l := by
  intro heq
  have hd := congrArg String.data heq
  simp only [String.data_append, List.append_assoc] at hd
  exact data_tail_head_ne (by
    intro hh
    simp only [List.cons_append, List.tail_cons, List.head?_cons] at hh
    exact absurd (Option.some.inj hh) (by decide)) flowDir.data hd

theorem promptPath_ne_codePath (flowDir x y l : String) :
    flowDir ++ "/prompts" ++ "/" ++ x ++ ".md" ≠ flowDir ++ "/code" ++ "/" ++ y ++ scriptExt l := by
  intro heq
  have hd := congrArg String.data heq
  simp only [String.data_append, List.append_assoc] at hd
  exact data_tail_head_ne (by
    intro hh
    simp only [List.cons_append, List.tail_cons, List.head?_cons] at hh
    exact absurd (Option.some.inj hh) (by decide)) flowDir.data hd

theorem mainPath_ne_nodePath (flowDir x : String) :
    flowDir ++ "/main.yaml" ≠ flowDir ++ "/nodes" ++ "/" ++ x ++ ".yaml" := by
  intro heq
  have hd := congrArg String.data heq
  simp only [String.data_append, List.append_assoc] at hd
  exact data_tail_head_ne (by
    intro hh
    simp only [List.cons_append, List.tail_cons, List.head?_cons] at hh
    exact absurd (Option.some.inj hh) (by decide)) flowDir.data hd

theorem mainPath_ne_promptPath (flowDir x : String) :
    flowDir ++ "/main.yaml" ≠ flowDir ++ "/prompts" ++ "/" ++ x ++ ".md" := by
  intro heq
  have hd := congrArg String.data heq
  simp only [String.data_append, List.append_assoc] at hd
  exact data_tail_head_ne (by
    intro hh
    simp only [List.cons_append, List.tail_cons, List.head?_cons] at hh
    exact absurd (Option.some.inj hh) (by decide)) flowDir.data hd

theorem mainPath_ne_codePath (flowDir x l : String) :
    flowDir ++ "/main.yaml" ≠ flowDir ++ "/code" ++ "/" ++ x ++ scriptExt l := by
  intro heq
  have hd := congrArg String.data heq
  simp only [String.data_append, List.append_assoc] at hd
  exact data_tail_head_ne (by
    intro hh
    simp only [List.cons_append, List.tail_cons, List.head?_cons] at hh
    exact absurd (Option.some.inj hh) (by decide)) flowDir.data hd

theorem nodePath_inj {flowDir x y : String}
    (h : flowDir ++ "/nodes" ++ "/" ++ x ++ ".yaml" = flowDir ++ "/nodes" ++ "/" ++ y ++ ".yaml") :
    x = y := by
  have hd := congrArg String.data h
  simp only [String.data_append, List.append_assoc] at hd
  have h1 := List.append_cancel_left hd
  have h2 := List.append_cancel_left h1
  have h3 := List.append_cancel_left h2
  exact String.ext (List.append_cancel_right h3)

theorem promptPath_inj {flowDir x y : String}
    (h : flowDir ++ "/prompts" ++ "/" ++ x ++ ".md" = flowDir ++ "/prompts" ++ "/" ++ y ++ ".md") :
    x = y := by
  have hd := congrArg String.data h
  simp only [String.data_append, List.append_assoc] at hd
  have h1 := List.append_cancel_left hd
  have h2 := List.append_cancel_left h1
  have h3 := List.append_cancel_left h2
  exact String.ext (List.append_cancel_right h3)

theorem scriptExt_cases (lang : String) :
    scriptExt lang = ".py" ∨ scriptExt lang = ".js" ∨ scriptExt lang = ".txt" := by
  unfold scriptExt
  split_ifs <;> simp

theorem codePath_ne {flowDir b₁ b₂ l₁ l₂ : String} (hb : b₁ ≠ b₂) :
    flowDir ++ "/code" ++ "/" ++ b₁ ++ scriptExt l₁ ≠
      flowDir ++ "/code" ++ "/" ++ b₂ ++ scriptExt l₂ := by
  intro heq
  have hd := congrArg String.data heq
  simp only [String.data_append, List.append_assoc] at hd
  have h1 := List.append_cancel_left hd
  have h2 := List.append_cancel_left h1
  have h3 := List.append_cancel_left h2
  -- h3 : b₁.data ++ (scriptExt l₁).data = b₂.data ++ (scriptExt l₂).data
  have hdata : b₁.data ≠ b₂.data := fun hx => hb (String.ext hx)
  rcases scriptExt_cases l₁ with he₁ | he₁ | he₁ <;>
    rcases scriptExt_cases l₂ with he₂ | he₂ | he₂ <;>
    rw [he₁, he₂] at h3 <;>
    first
      | exact hdata (List.append_cancel_right h3)
      | · have hlast := congrArg List.getLast? h3
          rw [List.getLast?_append_of_ne_nil _ (by decide),
            List.getLast?_append_of_ne_nil _ (by decide)] at hlast
          exact absurd hlast (by decide)

theorem promptWrap_inj (promptsDir : String) :
    Function.Injective (fun nm => promptsDir ++ "/" ++ nm ++ ".md") := by
  intro x y h
  have hd := congrArg String.data h
  simp only [String.data_append, List.append_assoc] at hd
  exact String.ext (List.append_cancel_right
    (List.append_cancel_left (List.append_cancel_left hd)))

theorem mem_promptWrites_paths {promptsDir base : String} {p : String} :
    ∀ {pes : List PromptEntry},
      p ∈ (promptWritesOf promptsDir base pes).map Prod.fst →
      ∃ pe ∈ pes, p = promptPathOf promptsDir base pe := by
  intro pes
  induction pes with
  | nil => intro hp; simp [promptWritesOf] at hp
  | cons pe rest ih =>
    intro hp
    cases hpe : pe.text with
    | text t =>
      rw [promptWritesOf, hpe] at hp
      simp only [List.map_cons, List.mem_cons] at hp
      rcases hp with hp | hp
      · exact ⟨pe, List.mem_cons_self _ _, hp⟩
      · obtain ⟨pe', hmem, hval⟩ := ih hp
        exact ⟨pe', List.mem_cons_of_mem _ hmem, hval⟩
    | ref q =>
      rw [promptWritesOf, hpe] at hp
      obtain ⟨pe', hmem, hval⟩ := ih hp
      exact ⟨pe', List.mem_cons_of_mem _ hmem, hval⟩

theorem promptWritesOf_map_fst (promptsDir base : String) :
    ∀ pes : List PromptEntry, pes.all inlinePrompt = true →
      (promptWritesOf promptsDir base pes).map Prod.fst =
        (pes.map (promptNameOf base)).map (fun nm => promptsDir ++ "/" ++ nm ++ ".md") := by
  intro pes
  induction pes with
  | nil => intro _; rfl
  | cons pe rest ih =>
    intro hall
    simp only [List.all_cons, Bool.and_eq_true] at hall
    cases hpe : pe.text with
    | ref q =>
      unfold inlinePrompt at hall
      rw [hpe] at hall
      simp at hall
    | text t =>
      rw [promptWritesOf, hpe]
      simp only [List.map_cons, ih hall.2]
      rfl

/-- Membership characterization of the paths one node's decomposition
writes. -/
theorem mem_nodeWrites_paths {flowDir : String} {n : Node} {p : String}
    (hp : p ∈ (nodeWritesOf (flowDir ++ "/nodes") (flowDir ++ "/prompts")
      (flowDir ++ "/code") n).map Prod.fst) :
    p = nodeFileOf (flowDir ++ "/nodes") n ∨
    (∃ nm ∈ nodePromptNamesOf n, p = flowDir ++ "/prompts" ++ "/" ++ nm ++ ".md") ∨
    (∃ lang, p = scriptPathOf (flowDir ++ "/code") (nodeBase n) lang) := by
  unfold nodeWritesOf at hp
  rw [List.map_append, List.map_append] at hp
  rcases List.mem_append.mp hp with hp | hp
  · rcases List.mem_append.mp hp with hp | hp
    · -- a prompt file
      cases hpt : n.data.prompt_template with
      | none => rw [hpt] at hp; simp at hp
      | some pes =>
        rw [hpt] at hp
        obtain ⟨pe, hmem, hval⟩ := mem_promptWrites_paths hp
        refine Or.inr (Or.inl ⟨promptNameOf (nodeBase n) pe, ?_, hval⟩)
        unfold nodePromptNamesOf
        rw [hpt]
        exact List.mem_map.mpr ⟨pe, hmem, rfl⟩
    · -- the code file
      cases hcode : n.data.code with
      | none => rw [hcode] at hp; simp at hp
      | some tv =>
        cases tv with
        | ref q => rw [hcode] at hp; simp at hp
        | text c =>
          cases hlang : n.data.code_language with
          | none => rw [hcode, hlang] at hp; simp at hp
          | some lg =>
            rw [hcode, hlang] at hp
            simp only [List.map_cons, List.map_nil, List.mem_singleton] at hp
            exact Or.inr (Or.inr ⟨lg, hp⟩)
  · simp only [List.map_cons, List.map_nil, List.mem_singleton] at hp
    exact Or.inl hp

/-- Within one node, the written paths are pairwise distinct (given
distinct prompt file names). -/
theorem nodeWrites_paths_nodup {flowDir : String} {n : Node}
    (hwf : inlineNodeData n.data = true)
    (hnames : (nodePromptNamesOf n).Nodup) :
    ((nodeWritesOf (flowDir ++ "/nodes") (flowDir ++ "/prompts")
      (flowDir ++ "/code") n).map Prod.fst).Nodup := by
  unfold inlineNodeData at hwf
  rw [Bool.and_eq_true] at hwf
  obtain ⟨hpt', hc'⟩ := hwf
  have hprompts : ∀ {p}, p ∈ (List.map Prod.fst (match n.data.prompt_template with
      | none => []
      | some pes => promptWritesOf (flowDir ++ "/prompts") (nodeBase n) pes)) →
      ∃ nm ∈ nodePromptNamesOf n, p = flowDir ++ "/prompts" ++ "/" ++ nm ++ ".md" := by
    intro p hp
    cases hpt : n.data.prompt_template with
    | none => rw [hpt] at hp; simp at hp
    | some pes =>
      rw [hpt] at hp
      obtain ⟨pe, hmem, hval⟩ := mem_promptWrites_paths hp
      refine ⟨promptNameOf (nodeBase n) pe, ?_, hval⟩
      unfold nodePromptNamesOf
      rw [hpt]
      exact List.mem_map.mpr ⟨pe, hmem, rfl⟩
  have hcodes : ∀ {p}, p ∈ (List.map Prod.fst (match n.data.code, n.data.code_language with
      | some (.text c), some lang =>
        [(scriptPathOf (flowDir ++ "/code") (nodeBase n) lang, FData.text c)]
      | _, _ => [])) →
      ∃ lang, p = scriptPathOf (flowDir ++ "/code") (nodeBase n) lang := by
    intro p hp
    cases hcode : n.data.code with
    | none => rw [hcode] at hp; simp at hp
    | some tv =>
      cases tv with
      | ref q => rw [hcode] at hp; simp at hp
      | text c =>
        cases hlang : n.data.code_language with
        | none => rw [hcode, hlang] at hp; simp at hp
        | some lg =>
          rw [hcode, hlang] at hp
          simp only [List.map_cons, List.map_nil, List.mem_singleton] at hp
          exact ⟨lg, hp⟩
  unfold nodeWritesOf
  rw [List.map_append, List.map_append, List.nodup_append, List.nodup_append]
  refine ⟨⟨?_, ?_, ?_⟩, by simp, ?_⟩
  · -- prompt paths are pairwise distinct
    cases hpt : n.data.prompt_template with
    | none => simp only [hpt]; simp
    | some pes =>
      simp only [hpt] at hpt' ⊢
      rw [promptWritesOf_map_fst _ _ pes hpt']
      apply List.Nodup.map (promptWrap_inj _)
      unfold nodePromptNamesOf at hnames
      rw [hpt] at hnames
      exact hnames
  · -- there is at most one code path
    cases hcode : n.data.code with
    | none => simp only [hcode]; simp
    | some tv =>
      cases tv with
      | ref q => simp only [hcode]; simp
      | text c =>
        cases hlang : n.data.code_language with
        | none => simp only [hcode, hlang]; simp
        | some lg => simp only [hcode, hlang]; simp
  · -- prompt paths never hit the code path
    intro p hp hq
    obtain ⟨nm, _, hvalp⟩ := hprompts hp
    obtain ⟨lg, hvalq⟩ := hcodes hq
    rw [hvalp] at hvalq
    exact promptPath_ne_codePath flowDir nm (nodeBase n) lg hvalq
  · -- neither prompt nor code paths hit the node descriptor path
    intro p hp hq
    simp only [List.map_cons, List.map_nil, List.mem_singleton] at hq
    subst hq
    rcases List.mem_append.mp hp with hp | hp
    · obtain ⟨nm, _, hval⟩ := hprompts hp
      exact nodePath_ne_promptPath flowDir (nodeBase n) nm hval
    · obtain ⟨lg, hval⟩ := hcodes hp
      exact nodePath_ne_codePath flowDir (nodeBase n) (nodeBase n) lg hval

/-- Across two nodes with different base names and disjoint prompt file
names, the written paths are disjoint. -/
theorem nodeWrites_paths_disjoint {flowDir : String} {n₁ n₂ : Node}
    (hb : nodeBase n₁ ≠ nodeBase n₂)
    (hdn : (nodePromptNamesOf n₁).Disjoint (nodePromptNamesOf n₂)) :
    ((nodeWritesOf (flowDir ++ "/nodes") (flowDir ++ "/prompts")
        (flowDir ++ "/code") n₁).map Prod.fst).Disjoint
      ((nodeWritesOf (flowDir ++ "/nodes") (flowDir ++ "/prompts")
        (flowDir ++ "/code") n₂).map Prod.fst) := by
  intro p hp₁ hp₂
  rcases mem_nodeWrites_paths hp₁ with h₁ | ⟨nm₁, hm₁, h₁⟩ | ⟨l₁, h₁⟩ <;>
    rcases mem_nodeWrites_paths hp₂ with h₂ | ⟨nm₂, hm₂, h₂⟩ | ⟨l₂, h₂⟩
  · have heq := h₁.symm.trans h₂
    unfold nodeFileOf at heq
    exact hb (nodePath_inj heq)
  · have heq := h₁.symm.trans h₂
    unfold nodeFileOf at heq
    exact nodePath_ne_promptPath flowDir (nodeBase n₁) nm₂ heq
  · have heq := h₁.symm.trans h₂
    unfold nodeFileOf scriptPathOf at heq
    exact nodePath_ne_codePath flowDir (nodeBase n₁) (nodeBase n₂) l₂ heq
  · have heq := h₂.symm.trans h₁
    unfold nodeFileOf at heq
    exact nodePath_ne_promptPath flowDir (nodeBase n₂) nm₁ heq
  · have heq := h₁.symm.trans h₂
    exact hdn hm₁ ((promptWrap_inj (flowDir ++ "/prompts") heq) ▸ hm₂)
  · have heq := h₁.symm.trans h₂
    unfold scriptPathOf at heq
    exact promptPath_ne_codePath flowDir nm₁ (nodeBase n₂) l₂ heq
  · have heq := h₂.symm.trans h₁
    unfold nodeFileOf scriptPathOf at heq
    exact nodePath_ne_codePath flowDir (nodeBase n₂) (nodeBase n₁) l₁ heq
  · have heq := h₂.symm.trans h₁
    unfold scriptPathOf at heq
    exact promptPath_ne_codePath flowDir nm₂ (nodeBase n₁) l₁ heq
  · have heq := h₁.symm.trans h₂
    unfold scriptPathOf at heq
    exact codePath_ne hb heq

/-- All paths of a decomposition are pairwise distinct, given
pairwise-distinct sanitized titles and pairwise-distinct prompt file
names. -/
theorem docWrites_paths_nodup (flowDir : String) (d : Doc)
    (hin : inlineDoc d = true)
    (hb : (docBases d).Nodup)
    (hpn : (docPromptNames d).Nodup) :
    ((docWritesOf flowDir d).map Prod.fst).Nodup := by
  have hwf : ∀ e ∈ d.nodes, inlineEntry e = true := List.all_eq_true.mp hin
  unfold docWritesOf
  rw [List.map_append, List.nodup_append]
  refine ⟨?_, by simp, ?_⟩
  · rw [List.map_flatMap, List.nodup_flatMap]
    constructor
    · intro e he
      cases e with
      | ref q =>
        have := hwf (.ref q) he
        simp [inlineEntry] at this
      | node n =>
        have hnames : (nodePromptNamesOf n).Nodup := by
          have := (List.nodup_flatMap.mp hpn).1 (.node n) he
          simpa using this
        have hwfn : inlineNodeData n.data = true := by
          have := hwf (.node n) he
          simpa [inlineEntry] using this
        exact nodeWrites_paths_nodup hwfn hnames
    · have hbp := List.pairwise_map.mp (by unfold docBases at hb; exact hb)
      have hnp := (List.nodup_flatMap.mp hpn).2
      have hcomb := hbp.and hnp
      apply hcomb.imp
      intro e₁ e₂ hpair
      obtain ⟨h1, h2⟩ := hpair
      cases e₁ with
      | ref q => intro p hp _; simp [entryWritesOf] at hp
      | node n₁ =>
        cases e₂ with
        | ref q => intro p _ hp; simp [entryWritesOf] at hp
        | node n₂ =>
          have hbne : nodeBase n₁ ≠ nodeBase n₂ := h1
          have hdisj : (nodePromptNamesOf n₁).Disjoint (nodePromptNamesOf n₂) := h2
          exact nodeWrites_paths_disjoint hbne hdisj
  · intro p hp hq
    simp only [List.map_cons, List.map_nil, List.mem_singleton] at hq
    subst hq
    rw [List.map_flatMap] at hp
    obtain ⟨e, he, hpe⟩ := List.mem_flatMap.mp hp
    cases e with
    | ref q => simp [entryWritesOf] at hpe
    | node n =>
      rcases mem_nodeWrites_paths hpe with h | ⟨nm, _, h⟩ | ⟨lg, h⟩
      · exact mainPath_ne_nodePath flowDir (nodeBase n) h
      · exact mainPath_ne_promptPath flowDir nm h
      · unfold scriptPathOf at h
        exact mainPath_ne_codePath flowDir (nodeBase n) lg h

theorem map_entryNodeOf :
    ∀ entries : List NodeEntry, entries.all inlineEntry = true →
      (entries.map entryNodeOf).map NodeEntry.node = entries := by
  intro entries
  induction entries with
  | nil => intro _; rfl
  | cons e rest ih =>
    intro hall
    simp only [List.all_cons, Bool.and_eq_true] at hall
    cases e with
    | ref q => simp [inlineEntry] at hall
    | node n => simp only [List.map_cons, entryNodeOf, ih hall.2]

theorem buildNodeList_eq (flowDir : String) (fs : FS) :
    ∀ entries : List NodeEntry, entries.all inlineEntry = true →
      (∀ e ∈ entries, ∀ w ∈ entryWritesOf (flowDir ++ "/nodes") (flowDir ++ "/prompts")
        (flowDir ++ "/code") e, fsRead fs w.1 = some w.2) →
      buildNodeList fs (entries.map (entryRefOf (flowDir ++ "/nodes"))) =
        .ok (entries.map entryNodeOf) := by
  intro entries
  induction entries with
  | nil => intro _ _; rfl
  | cons e rest ih =>
    intro hall hread
    simp only [List.all_cons, Bool.and_eq_true] at hall
    cases e with
    | ref q => simp [inlineEntry] at hall
    | node n =>
      have hb := buildNode_eq (flowDir ++ "/nodes") (flowDir ++ "/prompts")
        (flowDir ++ "/code") n fs hall.1
        (fun w hw => hread (.node n) (List.mem_cons_self _ _) w hw)
      simp only [List.map_cons, buildNodeList, entryRefOf, entryNodeOf, hb,
        ih hall.2 (fun e he w hw => hread e (List.mem_cons_of_mem _ he) w hw)]

/-- Decompose-then-compose restores an inline document whose written paths
are pairwise distinct. -/
theorem build_after_split (d : Doc) (flowDir : String) (fs : FS)
    (hin : inlineDoc d = true)
    (hb : (docBases d).Nodup)
    (hpn : (docPromptNames d).Nodup) :
    build_flow_from_files flowDir (applyWrites (docWritesOf flowDir d) fs) = .ok d := by
  have hnd := docWrites_paths_nodup flowDir d hin hb hpn
  have hreadw : ∀ w ∈ docWritesOf flowDir d,
      fsRead (applyWrites (docWritesOf flowDir d) fs) w.1 = some w.2 := by
    intro w hw
    obtain ⟨wp, wd⟩ := w
    exact fsRead_applyWrites_mem _ fs wp wd hnd hw
  have hmain : fsRead (applyWrites (docWritesOf flowDir d) fs) (flowDir ++ "/main.yaml") =
      some (.yamlMain (dslAfterOf flowDir d)) :=
    hreadw (flowDir ++ "/main.yaml", .yamlMain (dslAfterOf flowDir d)) (by
      unfold docWritesOf
      exact List.mem_append.mpr (Or.inr (List.mem_cons_self _ _)))
  have hreads : ∀ e ∈ d.nodes, ∀ w ∈ entryWritesOf (flowDir ++ "/nodes")
      (flowDir ++ "/prompts") (flowDir ++ "/code") e,
      fsRead (applyWrites (docWritesOf flowDir d) fs) w.1 = some w.2 :=
    fun e he w hw => hreadw w (by
      unfold docWritesOf
      exact List.mem_append.mpr (Or.inl (List.mem_flatMap.mpr ⟨e, he, hw⟩)))
  have hbuildlist := buildNodeList_eq flowDir (applyWrites (docWritesOf flowDir d) fs)
    d.nodes hin hreads
  unfold build_flow_from_files
  rw [hmain]
  simp only [dslAfterOf, hbuildlist, map_entryNodeOf d.nodes hin]

/-- After replaying one node's writes, reading the node descriptor path
gives that node's descriptor — whatever was written before (the node file
write is the last of the node's writes, so it wins even on collisions). -/
theorem fsRead_after_nodeWrites (nodesDir promptsDir codeDir : String) (n : Node) (fs : FS) :
    fsRead (applyWrites (nodeWritesOf nodesDir promptsDir codeDir n) fs)
      (nodeFileOf nodesDir n) =
      some (.yamlNode (nodeOutOf promptsDir codeDir n)) := by
  unfold nodeWritesOf
  rw [applyWrites_append, applyWrites_append]
  exact fsRead_fsWrite_self _ _ _

/-- After decomposition, every prompt entry of a node's descriptor holds a
reference pointer. -/
theorem outPromptsOf_refs (promptsDir base : String) :
    ∀ pes : List PromptEntry, pes.all inlinePrompt = true →
      ∀ pe ∈ outPromptsOf promptsDir base pes, ∃ p, pe.text = .ref p := by
  intro pes
  induction pes with
  | nil => intro _ pe hpe; simp [outPromptsOf] at hpe
  | cons pe0 rest ih =>
    intro hall pe hpe
    simp only [List.all_cons, Bool.and_eq_true] at hall
    cases hpe0 : pe0.text with
    | ref q =>
      unfold inlinePrompt at hall
      rw [hpe0] at hall
      simp at hall
    | text t =>
      rw [outPromptsOf, hpe0] at hpe
      rcases List.mem_cons.mp hpe with hpe | hpe
      · exact ⟨_, by rw [hpe]⟩
      · exact ih hall.2 pe hpe

theorem entryRefOf_is_ref (nodesDir : String) (e : NodeEntry) :
    ∃ p, entryRefOf nodesDir e = .ref p := by
  cases e with
  | node n => exact ⟨_, rfl⟩
  | ref p => exact ⟨p, rfl⟩

theorem applyWrites_nil (fs : FS) : applyWrites [] fs = fs := rfl

/-- The prompt template of a decomposed node descriptor. -/
theorem nodeOutOf_prompt_template (promptsDir codeDir : String) (m : Node) :
    (nodeOutOf promptsDir codeDir m).data.prompt_template =
      match m.data.prompt_template with
      | none => none
      | some pes => some (outPromptsOf promptsDir (nodeBase m) pes) := by
  obtain ⟨nid, ndata⟩ := m
  obtain ⟨title, pt, code, lang⟩ := ndata
  cases pt with
  | none =>
    cases code with
    | none => rfl
    | some tv =>
      cases tv with
      | text s =>
        cases lang with
        | none => rfl
        | some l => rfl
      | ref p => rfl
  | some pes =>
    cases code with
    | none => rfl
    | some tv =>
      cases tv with
      | text s =>
        cases lang with
        | none => rfl
        | some l => rfl
      | ref p => rfl

/-! ## How composition fails on a broken directory -/

theorem restorePromptList_append (fs : FS) :
    ∀ l₁ l₂ : List PromptEntry,
      restorePromptList fs (l₁ ++ l₂) =
        match restorePromptList fs l₁ with
        | .error e => .error e
        | .ok r₁ =>
          match restorePromptList fs l₂ with
          | .error e => .error e
          | .ok r₂ => .ok (r₁ ++ r₂) := by
  intro l₁
  induction l₁ with
  | nil =>
    intro l₂
    cases h : restorePromptList fs l₂ with
    | error e => simp [restorePromptList, h]
    | ok r => simp [restorePromptList, h]
  | cons a t ih =>
    intro l₂
    cases hat : a.text with
    | text s =>
      show restorePromptList fs (a :: (t ++ l₂)) = _
      cases h1 : restorePromptList fs t <;> cases h2 : restorePromptList fs l₂ <;>
        simp [restorePromptList, hat, ih l₂, h1, h2]
    | ref rp =>
      show restorePromptList fs (a :: (t ++ l₂)) = _
      cases hr : readTextFile fs rp <;>
        cases h1 : restorePromptList fs t <;> cases h2 : restorePromptList fs l₂ <;>
        simp [restorePromptList, hat, hr, ih l₂, h1, h2]

theorem buildNodeList_append (fs : FS) :
    ∀ l₁ l₂ : List NodeEntry,
      buildNodeList fs (l₁ ++ l₂) =
        match buildNodeList fs l₁ with
        | .error e => .error e
        | .ok ns₁ =>
          match buildNodeList fs l₂ with
          | .error e => .error e
          | .ok ns₂ => .ok (ns₁ ++ ns₂) := by
  intro l₁
  induction l₁ with
  | nil =>
    intro l₂
    cases h : buildNodeList fs l₂ with
    | error e => simp [buildNodeList, h]
    | ok r => simp [buildNodeList, h]
  | cons a t ih =>
    intro l₂
    show buildNodeList fs (a :: (t ++ l₂)) = _
    cases hb : buildNode fs a <;>
      cases h1 : buildNodeList fs t <;> cases h2 : buildNodeList fs l₂ <;>
      simp [buildNodeList, hb, ih l₂, h1, h2]

theorem buildNodeList_ok_of_all (fs : FS) :
    ∀ l : List NodeEntry, (∀ e ∈ l, ∃ n', buildNode fs e = .ok n') →
      ∃ ns, buildNodeList fs l = .ok ns := by
  intro l
  induction l with
  | nil => intro _; exact ⟨[], rfl⟩
  | cons a t ih =>
    intro h
    obtain ⟨n', hn'⟩ := h a (List.mem_cons_self _ _)
    obtain ⟨ns, hns⟩ := ih (fun e he => h e (List.mem_cons_of_mem _ he))
    exact ⟨n' :: ns, by simp only [buildNodeList, hn', hns]⟩

/-- A node whose `code` reference dangles makes `buildNode` fail with the
file-not-found error carrying the missing path, whatever its (restorable)
prompt template looks like. -/
theorem buildNode_error_of_dangling_code {fs : FS} {p q : String} {n : Node}
    (hnode : fsRead fs p = some (.yamlNode n))
    (hpt : n.data.prompt_template = none ∨
      ∃ pes pes', n.data.prompt_template = some pes ∧ restorePromptList fs pes = .ok pes')
    (hcode : n.data.code = some (.ref q))
    (hq : fsRead fs q = none) :
    buildNode fs (.ref p) = .error (.fileNotFound q) := by
  rcases hpt with hpt | ⟨pes, pes', hpes, hok⟩
  · simp only [buildNode, hnode, hpt, hcode, readTextFile, hq]
  · simp only [buildNode, hnode, hpes, hok, hcode, readTextFile, hq]

/-- A prompt entry whose `text` reference dangles makes `buildNode` fail
with the file-not-found error carrying the missing path, once the entries
before it restore. -/
theorem buildNode_error_of_dangling_prompt {fs : FS} {p q : String} {n : Node}
    {pes₁ pes₂ : List PromptEntry} {pe : PromptEntry}
    (hnode : fsRead fs p = some (.yamlNode n))
    (hpes : n.data.prompt_template = some (pes₁ ++ pe :: pes₂))
    (hok₁ : ∃ pes₁', restorePromptList fs pes₁ = .ok pes₁')
    (hpe : pe.text = .ref q)
    (hq : fsRead fs q = none) :
    buildNode fs (.ref p) = .error (.fileNotFound q) := by
  obtain ⟨pes₁', hok₁⟩ := hok₁
  have hfail : restorePromptList fs (pes₁ ++ pe :: pes₂) = .error (.fileNotFound q) := by
    rw [restorePromptList_append fs pes₁ (pe :: pes₂), hok₁]
    simp only [restorePromptList, hpe, readTextFile, hq]
  simp only [buildNode, hnode, hpes, hfail]

/-! ## Helper lemmas for the claim theorems -/

theorem find?_eq_some_of_first {α} (p : α → Bool) :
    ∀ (pre : List α) (e : α) (post : List α),
      (∀ x ∈ pre, p x = false) → p e = true →
      (pre ++ e :: post).find? p = some e := by
  intro pre
  induction pre with
  | nil =>
    intro e post _ he
    simp [List.find?_cons_of_pos, he]
  | cons a t ih =>
    intro e post h he
    rw [List.cons_append, List.find?_cons_of_neg _ (by simp [h a (by simp)])]
    exact ih e post (fun x hx => h x (by simp [hx])) he

/-! ## The claims -/

/-- **C2** — Sanitizer idempotence: `sanitize(sanitize(s)) == sanitize(s)`
for every input string `s` when no extension is given (so in particular for
the empty string, strings of only illegal characters, and reserved device
names), and `sanitize("CON") == "CON_"`. -/
theorem claim_C2_sanitizer_idempotent :
    (∀ s : String, ensure_filename (ensure_filename s) = ensure_filename s) ∧
    ensure_filename "CON" = "CON_" :=
  ⟨fun s => congrArg String.mk (sanitizeChars_idem s.data), by decide⟩

/-- **C3, as claimed, is false**: `allocate_dir_for_app` does not keep `id`
values pairwise distinct when the allocated id is already present.  On the
registry `[{name Demo, id X, dir Demo}]` (which satisfies both uniqueness
invariants) a second allocation with the same id `X` produces duplicate
ids. -/
theorem claim_C3_counterexample :
    ((AppsMap.mk [⟨"Demo", "X", "Demo"⟩]).apps.map (·.dir)).Nodup ∧
    ((AppsMap.mk [⟨"Demo", "X", "Demo"⟩]).apps.map (·.id)).Nodup ∧
    ¬ (((allocate_dir_for_app "Other" "X" (AppsMap.mk [⟨"Demo", "X", "Demo"⟩])).1.apps.map
        (·.id)).Nodup) := by
  decide

/-- **C3 (amended)** — `allocate_dir_for_app` always keeps `dir` values
pairwise distinct; it keeps `id` values pairwise distinct provided the
allocated id is not already present (there is no dedup-by-id check). -/
theorem claim_C3_allocate_preserves_uniqueness (nm idv : String) (m : AppsMap)
    (hdir : (m.apps.map (·.dir)).Nodup) :
    (((allocate_dir_for_app nm idv m).1.apps.map (·.dir)).Nodup) ∧
    ((m.apps.map (·.id)).Nodup → idv ∉ m.apps.map (·.id) →
      (((allocate_dir_for_app nm idv m).1.apps.map (·.id)).Nodup)) := by
  have hfresh := allocDirLoop_not_mem (ensure_filename nm) (m.apps.map (·.dir))
  unfold allocate_dir_for_app
  simp only [List.map_append, List.map_cons, List.map_nil]
  constructor
  · rw [List.nodup_append]
    exact ⟨hdir, List.nodup_singleton _, by simpa using hfresh⟩
  · intro hid hmem
    rw [List.nodup_append]
    exact ⟨hid, List.nodup_singleton _, by simpa using hmem⟩

theorem claim_C3_allocate_preserves_uniqueness_witness :
    (((AppsMap.mk [⟨"Demo", "X", "Demo"⟩]).apps.map (·.dir)).Nodup) ∧
    (((allocate_dir_for_app "Demo" "Y" (AppsMap.mk [⟨"Demo", "X", "Demo"⟩])).1.apps.map
        (·.dir)).Nodup) ∧
    (((allocate_dir_for_app "Demo" "Y" (AppsMap.mk [⟨"Demo", "X", "Demo"⟩])).1.apps.map
        (·.id)).Nodup) := by
  refine ⟨by decide, ?_, ?_⟩
  · exact (claim_C3_allocate_preserves_uniqueness "Demo" "Y" ⟨[⟨"Demo", "X", "Demo"⟩]⟩
      (by decide)).1
  · exact (claim_C3_allocate_preserves_uniqueness "Demo" "Y" ⟨[⟨"Demo", "X", "Demo"⟩]⟩
      (by decide)).2 (by decide) (by decide)

/-- **C6** — `allocate_dir_for_app` chooses the sanitized base name if no
entry uses it, and otherwise `base_k` for the lowest `k ≥ 2` that is
unused; three successive allocations named `"Demo"` into a Demo-free
registry yield `"Demo"`, `"Demo_2"`, `"Demo_3"` (whatever the ids). -/
theorem claim_C6_allocate_lowest_suffix :
    (∀ (m : AppsMap) (nm idv : String),
      ((ensure_filename nm ∉ m.apps.map (·.dir)) →
        (allocate_dir_for_app nm idv m).2 = ensure_filename nm) ∧
      ((ensure_filename nm ∈ m.apps.map (·.dir)) →
        ∃ k, 2 ≤ k ∧
          (allocate_dir_for_app nm idv m).2 = ensure_filename nm ++ "_" ++ Nat.repr k ∧
          (allocate_dir_for_app nm idv m).2 ∉ m.apps.map (·.dir) ∧
          ∀ j, 2 ≤ j → j < k →
            ensure_filename nm ++ "_" ++ Nat.repr j ∈ m.apps.map (·.dir)))
    ∧ (∀ i₁ i₂ i₃ : String,
        (allocate_dir_for_app "Demo" i₁ ⟨[]⟩).2 = "Demo" ∧
        (allocate_dir_for_app "Demo" i₂ (allocate_dir_for_app "Demo" i₁ ⟨[]⟩).1).2 = "Demo_2" ∧
        (allocate_dir_for_app "Demo" i₃
          (allocate_dir_for_app "Demo" i₂ (allocate_dir_for_app "Demo" i₁ ⟨[]⟩).1).1).2 =
          "Demo_3") := by
  constructor
  · intro m nm idv
    have hleast := allocDirLoop_least (ensure_filename nm) (m.apps.map (·.dir))
      ((m.apps.map (·.dir)).length + 1) (ensure_filename nm) 2
      (allocCands_not_subset _ _)
    constructor
    · intro hfree
      rcases hleast with ⟨_, heq⟩ | ⟨hmem, _⟩
      · exact heq
      · exact absurd hmem hfree
    · intro hmem
      rcases hleast with ⟨hfree, _⟩ | ⟨_, k, hk, heq, hfree, hall⟩
      · exact absurd hmem hfree
      · have h2 : (allocate_dir_for_app nm idv m).2 = dirCandidate (ensure_filename nm) k := heq
        refine ⟨k, hk, h2, ?_, hall⟩
        rw [h2]
        exact hfree
  · intro i₁ i₂ i₃
    exact ⟨rfl, rfl, rfl⟩

theorem claim_C6_allocate_lowest_suffix_witness :
    (ensure_filename "Demo" ∈ (AppsMap.mk [⟨"Demo", "X", "Demo"⟩]).apps.map (·.dir)) ∧
    (∃ k, 2 ≤ k ∧
      (allocate_dir_for_app "Demo" "Y" (AppsMap.mk [⟨"Demo", "X", "Demo"⟩])).2 =
        ensure_filename "Demo" ++ "_" ++ Nat.repr k ∧
      (allocate_dir_for_app "Demo" "Y" (AppsMap.mk [⟨"Demo", "X", "Demo"⟩])).2 ∉
        (AppsMap.mk [⟨"Demo", "X", "Demo"⟩]).apps.map (·.dir) ∧
      ∀ j, 2 ≤ j → j < k →
        ensure_filename "Demo" ++ "_" ++ Nat.repr j ∈
          (AppsMap.mk [⟨"Demo", "X", "Demo"⟩]).apps.map (·.dir)) :=
  ⟨by decide,
   (claim_C6_allocate_lowest_suffix.1 ⟨[⟨"Demo", "X", "Demo"⟩]⟩ "Demo" "Y").2 (by decide)⟩

/-- **C4** — `resolve_app_identifier`: an id-shaped token (36 hex/dash
characters) is returned unchanged without consulting the registry;
otherwise the first entry in stored order whose `dir` equals the token
wins, then (only if no `dir` matches) the first whose `name` equals it;
with no match at all the lookup fails with the `UnknownApp` error carrying
the token. -/
theorem claim_C4_resolve_spec (tok : String) (m : AppsMap) :
    (looksLikeAppId tok = true →
      ∀ m' : AppsMap, resolve_app_identifier tok m' = .ok tok) ∧
    (looksLikeAppId tok = false →
      ∀ pre e post, m.apps = pre ++ e :: post → e.dir = tok →
        (∀ x ∈ pre, x.dir ≠ tok) →
        resolve_app_identifier tok m = .ok e.id) ∧
    (looksLikeAppId tok = false → (∀ x ∈ m.apps, x.dir ≠ tok) →
      ∀ pre e post, m.apps = pre ++ e :: post → e.name = tok →
        (∀ x ∈ pre, x.name ≠ tok) →
        resolve_app_identifier tok m = .ok e.id) ∧
    (looksLikeAppId tok = false →
      (∀ x ∈ m.apps, x.dir ≠ tok ∧ x.name ≠ tok) →
      resolve_app_identifier tok m = .error tok) := by
  refine ⟨?_, ?_, ?_, ?_⟩
  · intro h m'
    unfold resolve_app_identifier
    rw [if_pos h]
  · intro h pre e post hsplit he hpre
    unfold resolve_app_identifier
    rw [if_neg (by simp [h]), hsplit,
      find?_eq_some_of_first _ pre e post (fun x hx => by simp [hpre x hx]) (by simp [he])]
  · intro h hdirs pre e post hsplit he hpre
    unfold resolve_app_identifier
    rw [if_neg (by simp [h])]
    have hnone : m.apps.find? (fun x => x.dir == tok) = none :=
      List.find?_eq_none.mpr (fun x hx => by simp [hdirs x hx])
    rw [hnone, hsplit,
      find?_eq_some_of_first _ pre e post (fun x hx => by simp [hpre x hx]) (by simp [he])]
  · intro h hall
    unfold resolve_app_identifier
    rw [if_neg (by simp [h]),
      List.find?_eq_none.mpr (fun x hx => by simp [(hall x hx).1]),
      List.find?_eq_none.mpr (fun x hx => by simp [(hall x hx).2])]

theorem claim_C4_resolve_spec_witness :
    (looksLikeAppId "11111111-1111-1111-1111-111111111111" = true ∧
      resolve_app_identifier "11111111-1111-1111-1111-111111111111"
        ⟨[⟨"Demo", "11111111-1111-1111-1111-111111111111", "Demo"⟩]⟩ =
        .ok "11111111-1111-1111-1111-111111111111") ∧
    (resolve_app_identifier "Demo"
        ⟨[⟨"Demo", "11111111-1111-1111-1111-111111111111", "Demo"⟩]⟩ =
        .ok "11111111-1111-1111-1111-111111111111") ∧
    (resolve_app_identifier "nope"
        ⟨[⟨"Demo", "11111111-1111-1111-1111-111111111111", "Demo"⟩]⟩ = .error "nope") := by
  refine ⟨⟨by decide, ?_⟩, ?_, ?_⟩
  · exact (claim_C4_resolve_spec "11111111-1111-1111-1111-111111111111"
      ⟨[⟨"Demo", "11111111-1111-1111-1111-111111111111", "Demo"⟩]⟩).1 (by decide) _
  · exact ((claim_C4_resolve_spec "Demo"
      ⟨[⟨"Demo", "11111111-1111-1111-1111-111111111111", "Demo"⟩]⟩).2.1 (by decide)
      [] ⟨"Demo", "11111111-1111-1111-1111-111111111111", "Demo"⟩ [] rfl rfl
      (by intro x hx; simp at hx))
  · exact ((claim_C4_resolve_spec "nope"
      ⟨[⟨"Demo", "11111111-1111-1111-1111-111111111111", "Demo"⟩]⟩).2.2.2 (by decide)
      (by intro x hx; simp at hx; rw [hx]; exact ⟨by decide, by decide⟩))

/-- **C1, as claimed, is false**: non-colliding node titles are not enough
for the round trip.  A document with a single node (titles trivially
non-colliding, all texts inline) whose prompt template has two entries with
the same role `"user"` decomposes both texts to the same prompt file
`t__user.md`; the second write overwrites the first, and composing returns
both texts as `"B"` instead of `"A"`, `"B"`. -/
theorem claim_C1_counterexample :
    (docBases dupRoleDoc).Nodup ∧
    inlineDoc dupRoleDoc = true ∧
    ((split_flow_to_files dupRoleDoc "flow" []).toOption.map
        (fun r => (build_flow_from_files "flow" r.fs).toOption)) =
      some (some dupRoleDocAfter) ∧
    dupRoleDocAfter ≠ dupRoleDoc := by
  refine ⟨by decide, by decide, by decide, by decide⟩

/-- **C1 (amended)** — Round trip: for every inline WorkflowDocument whose
sanitized node titles are pairwise non-colliding **and whose derived prompt
file names `<base>__<sanitized role>` are pairwise distinct across the
whole document**, composing the directory produced by decomposing it (on
any starting filesystem) succeeds and returns a document equal to the
original — same node order, node ids, and every prompt/code text value
(indeed the whole document is restored). -/
theorem claim_C1_roundtrip (d : Doc) (flowDir : String) (fs : FS)
    (hin : inlineDoc d = true)
    (hb : (docBases d).Nodup)
    (hpn : (docPromptNames d).Nodup) :
    ∃ r : SplitResult, split_flow_to_files d flowDir fs = .ok r ∧
      build_flow_from_files flowDir r.fs = .ok d :=
  ⟨_, split_flow_to_files_eq d flowDir fs hin,
    build_after_split d flowDir fs hin hb hpn⟩

theorem claim_C1_roundtrip_witness :
    inlineDoc demoDoc = true ∧ (docBases demoDoc).Nodup ∧ (docPromptNames demoDoc).Nodup ∧
    ∃ r : SplitResult, split_flow_to_files demoDoc "flow" [] = .ok r ∧
      build_flow_from_files "flow" r.fs = .ok demoDoc :=
  ⟨by decide, by decide, by decide,
    claim_C1_roundtrip demoDoc "flow" [] (by decide) (by decide) (by decide)⟩

/-- **C10** — the sanitizer is not injective on distinct legal-looking
inputs: `"a/b"` and `"a:b"` both sanitize to `"a_b"`, `"a_b"` and
`"a__b"` collapse to the same result, and decomposing a document whose two
nodes are titled `"a/b"` and `"a:b"` assigns both node descriptors the
same file name. -/
theorem claim_C10_sanitizer_not_injective :
    ensure_filename "a/b" = "a_b" ∧ ensure_filename "a:b" = "a_b" ∧
    ("a/b" : String) ≠ "a:b" ∧
    ensure_filename "a_b" = ensure_filename "a__b" ∧ ("a_b" : String) ≠ "a__b" ∧
    ((split_flow_to_files
        ⟨"app", [.node ⟨"n1", { title := "a/b" }⟩, .node ⟨"n2", { title := "a:b" }⟩]⟩
        "flow" []).toOption.map (fun r => r.dslAfter.nodes) =
      some [.ref "flow/nodes/a_b.yaml", .ref "flow/nodes/a_b.yaml"]) := by
  refine ⟨by decide, by decide, by decide, by decide, by decide, ?_⟩
  decide

/-- **C5, as claimed, is false in one respect**: the failure does identify
the missing path, but not the owning node.  Two directories that differ
only in the owning node (different node id and title) produce the *same*
error value, so the error cannot identify the owning node. -/
theorem claim_C5_counterexample :
    build_flow_from_files "flow" brokenFs1 = .error (.fileNotFound "flow/code/gone.py") ∧
    build_flow_from_files "flow" brokenFs2 = .error (.fileNotFound "flow/code/gone.py") ∧
    fsRead brokenFs1 "flow/nodes/a.yaml" = some (.yamlNode brokenNode1) ∧
    fsRead brokenFs2 "flow/nodes/a.yaml" = some (.yamlNode brokenNode2) ∧
    brokenNode1 ≠ brokenNode2 := by
  refine ⟨rfl, rfl, by decide, by decide, by decide⟩

/-- **C5 (amended)** — Broken reference: for every directory whose main
descriptor's node list reaches (after any prefix of buildable entries) a
node descriptor in which `data.code` — or a prompt entry's `text` (after
any prefix of restorable entries) — holds a reference pointer to a file
that does not exist, composition fails with the file-not-found error
carrying that missing path (but not the owning node) and returns no
partially-built document. -/
theorem claim_C5_broken_reference :
    (∀ (flowDir appName p q : String) (fs : FS) (pre rest : List NodeEntry) (n : Node),
      fsRead fs (flowDir ++ "/main.yaml") =
        some (.yamlMain ⟨appName, pre ++ .ref p :: rest⟩) →
      (∀ e ∈ pre, ∃ n', buildNode fs e = .ok n') →
      fsRead fs p = some (.yamlNode n) →
      (n.data.prompt_template = none ∨
        ∃ pes pes', n.data.prompt_template = some pes ∧
          restorePromptList fs pes = .ok pes') →
      n.data.code = some (.ref q) →
      fsRead fs q = none →
      build_flow_from_files flowDir fs = .error (.fileNotFound q)) ∧
    (∀ (flowDir appName p q : String) (fs : FS) (pre rest : List NodeEntry) (n : Node)
        (pes₁ pes₂ : List PromptEntry) (pe : PromptEntry),
      fsRead fs (flowDir ++ "/main.yaml") =
        some (.yamlMain ⟨appName, pre ++ .ref p :: rest⟩) →
      (∀ e ∈ pre, ∃ n', buildNode fs e = .ok n') →
      fsRead fs p = some (.yamlNode n) →
      n.data.prompt_template = some (pes₁ ++ pe :: pes₂) →
      (∃ pes₁', restorePromptList fs pes₁ = .ok pes₁') →
      pe.text = .ref q →
      fsRead fs q = none →
      build_flow_from_files flowDir fs = .error (.fileNotFound q)) := by
  constructor
  · intro flowDir appName p q fs pre rest n hmain hpre hnode hpt hcode hq
    have hfailnode : buildNode fs (.ref p) = .error (.fileNotFound q) :=
      buildNode_error_of_dangling_code hnode hpt hcode hq
    obtain ⟨ns, hns⟩ := buildNodeList_ok_of_all fs pre hpre
    unfold build_flow_from_files
    rw [hmain]
    simp only [buildNodeList_append fs pre (.ref p :: rest), hns, buildNodeList, hfailnode]
  · intro flowDir appName p q fs pre rest n pes₁ pes₂ pe hmain hpre hnode hpes hok₁ hpe hq
    have hfailnode : buildNode fs (.ref p) = .error (.fileNotFound q) :=
      buildNode_error_of_dangling_prompt hnode hpes hok₁ hpe hq
    obtain ⟨ns, hns⟩ := buildNodeList_ok_of_all fs pre hpre
    unfold build_flow_from_files
    rw [hmain]
    simp only [buildNodeList_append fs pre (.ref p :: rest), hns, buildNodeList, hfailnode]

theorem claim_C5_broken_reference_witness :
    build_flow_from_files "flow" brokenFs1 = .error (.fileNotFound "flow/code/gone.py") ∧
    build_flow_from_files "flow" promptBrokenFs = .error (.fileNotFound "flow/prompts/gone.md") := by
  constructor
  · exact claim_C5_broken_reference.1 "flow" "app" "flow/nodes/a.yaml" "flow/code/gone.py"
      brokenFs1 [] [] brokenNode1 (by decide) (by intro e he; simp at he)
      (by decide) (Or.inl (by decide)) (by decide) (by decide)
  · exact claim_C5_broken_reference.2 "flow" "app" "flow/nodes/c.yaml" "flow/prompts/gone.md"
      promptBrokenFs [.ref "flow/nodes/ok.yaml"] [] promptBrokenNode
      [⟨"system", .ref "flow/prompts/c__system.md"⟩] [] ⟨"user", .ref "flow/prompts/gone.md"⟩
      (by decide)
      (by
        intro e he
        simp at he
        subst he
        exact ⟨_, rfl⟩)
      (by decide) (by decide) ⟨_, rfl⟩ (by decide) (by decide)

/-- **C7** — Extension mapping: when a node's `code` is an inline string
with `code_language` present, a successful decomposition of that node
writes the code to `code/<base><ext>` and points `data.code` at it, where
the extension is chosen by substring containment on `code_language`
(`"python"` ⊆ it → `.py`, else `"javascript"` ⊆ it → `.js`, else `.txt`);
in particular `"python3"` yields `.py`, `"javascript-es6"` yields `.js`,
and `"plain"` yields `.txt`. -/
theorem claim_C7_extension_mapping (nodesDir promptsDir codeDir : String) (n : Node)
    (fs fs' : FS) (nf : String) (out : Node) (c lang : String)
    (hc : n.data.code = some (.text c))
    (hl : n.data.code_language = some lang)
    (hok : splitNode nodesDir promptsDir codeDir (.node n) fs = .ok (fs', nf, out)) :
    (out.data.code =
        some (.ref (codeDir ++ "/" ++ ensure_filename n.data.title ++ scriptExt lang)) ∧
      (codeDir ++ "/" ++ ensure_filename n.data.title ++ scriptExt lang, FData.text c) ∈ fs') ∧
    scriptExt "python3" = ".py" ∧ scriptExt "javascript-es6" = ".js" ∧
    scriptExt "plain" = ".txt" := by
  refine ⟨?_, by decide, by decide, by decide⟩
  unfold splitNode at hok
  cases hpt : n.data.prompt_template with
  | none =>
    simp only [hpt, hc, hl, scriptPath_ite_eq] at hok
    rw [Except.ok.injEq, Prod.mk.injEq, Prod.mk.injEq] at hok
    obtain ⟨hfs, _, hout⟩ := hok
    constructor
    · rw [← hout]
    · rw [← hfs]
      exact List.mem_cons_of_mem _ (List.mem_cons_self _ _)
  | some pes =>
    cases hsp : splitPromptList promptsDir (ensure_filename n.data.title) pes fs with
    | error e =>
      simp only [hpt, hsp] at hok
      exact Except.noConfusion hok
    | ok pr =>
      obtain ⟨fs1, pes'⟩ := pr
      simp only [hpt, hsp, hc, hl, scriptPath_ite_eq] at hok
      rw [Except.ok.injEq, Prod.mk.injEq, Prod.mk.injEq] at hok
      obtain ⟨hfs, _, hout⟩ := hok
      constructor
      · rw [← hout]
      · rw [← hfs]
        exact List.mem_cons_of_mem _ (List.mem_cons_self _ _)

theorem claim_C7_extension_mapping_witness :
    pyNode.data.code = some (.text "x=1") ∧
    pyNode.data.code_language = some "python3" ∧
    ∃ fs' nf out, splitNode "nodes" "prompts" "code" (.node pyNode) [] = .ok (fs', nf, out) ∧
      (out.data.code =
          some (.ref ("code" ++ "/" ++ ensure_filename pyNode.data.title ++ scriptExt "python3")) ∧
        ("code" ++ "/" ++ ensure_filename pyNode.data.title ++ scriptExt "python3",
          FData.text "x=1") ∈ fs') ∧
      scriptExt "python3" = ".py" ∧ scriptExt "javascript-es6" = ".js" ∧
      scriptExt "plain" = ".txt" := by
  refine ⟨by decide, by decide, _, _, _, rfl, ?_⟩
  exact claim_C7_extension_mapping "nodes" "prompts" "code" pyNode [] _ _ _ "x=1" "python3"
    (by decide) (by decide) rfl

/-- **C8** — Node-title collision: decomposing a two-node document whose
titles sanitize to the same base name raises no error; both entries of the
main descriptor's node list point at the same `nodes/<base>.yaml` path, and
that file holds the *second* node's descriptor (the later node silently
overwrote the earlier one's file; no disambiguation is applied). -/
theorem claim_C8_title_collision (flowDir appName : String) (n₁ n₂ : Node) (fs : FS)
    (hin₁ : inlineNodeData n₁.data = true) (hin₂ : inlineNodeData n₂.data = true)
    (hcol : ensure_filename n₁.data.title = ensure_filename n₂.data.title) :
    ∃ r : SplitResult,
      split_flow_to_files ⟨appName, [.node n₁, .node n₂]⟩ flowDir fs = .ok r ∧
      r.dslAfter.nodes = [.ref (nodeFileOf (flowDir ++ "/nodes") n₁),
        .ref (nodeFileOf (flowDir ++ "/nodes") n₁)] ∧
      fsRead r.fs (nodeFileOf (flowDir ++ "/nodes") n₁) =
        some (.yamlNode (nodeOutOf (flowDir ++ "/prompts") (flowDir ++ "/code") n₂)) := by
  have hfe : nodeFileOf (flowDir ++ "/nodes") n₂ = nodeFileOf (flowDir ++ "/nodes") n₁ := by
    unfold nodeFileOf nodeBase
    rw [hcol]
  have hin : inlineDoc ⟨appName, [.node n₁, .node n₂]⟩ = true := by
    simp [inlineDoc, inlineEntry, hin₁, hin₂]
  refine ⟨_, split_flow_to_files_eq _ flowDir fs hin, ?_, ?_⟩
  · show List.map (entryRefOf (flowDir ++ "/nodes")) [.node n₁, .node n₂] = _
    simp only [List.map_cons, List.map_nil, entryRefOf]
    rw [hfe]
  · show fsRead (applyWrites (docWritesOf flowDir ⟨appName, [.node n₁, .node n₂]⟩) fs) _ = _
    simp only [docWritesOf, List.flatMap_cons, List.flatMap_nil, entryWritesOf,
      List.append_nil, applyWrites_append]
    have hstep : applyWrites [(flowDir ++ "/main.yaml",
        FData.yamlMain (dslAfterOf flowDir ⟨appName, [.node n₁, .node n₂]⟩))]
        (applyWrites (nodeWritesOf (flowDir ++ "/nodes") (flowDir ++ "/prompts")
          (flowDir ++ "/code") n₂)
          (applyWrites (nodeWritesOf (flowDir ++ "/nodes") (flowDir ++ "/prompts")
            (flowDir ++ "/code") n₁) fs)) =
        fsWrite (applyWrites (nodeWritesOf (flowDir ++ "/nodes") (flowDir ++ "/prompts")
          (flowDir ++ "/code") n₂)
          (applyWrites (nodeWritesOf (flowDir ++ "/nodes") (flowDir ++ "/prompts")
            (flowDir ++ "/code") n₁) fs))
          (flowDir ++ "/main.yaml")
          (FData.yamlMain (dslAfterOf flowDir ⟨appName, [.node n₁, .node n₂]⟩)) := rfl
    rw [hstep, fsRead_fsWrite_ne _
      (show flowDir ++ "/main.yaml" ≠ nodeFileOf (flowDir ++ "/nodes") n₁ from
        mainPath_ne_nodePath flowDir (nodeBase n₁)), ← hfe]
    exact fsRead_after_nodeWrites _ _ _ n₂ _

theorem claim_C8_title_collision_witness :
    inlineNodeData (⟨"x1", { title := "t" }⟩ : Node).data = true ∧
    ensure_filename (⟨"x1", { title := "t" }⟩ : Node).data.title =
      ensure_filename (⟨"x2", { title := "t" }⟩ : Node).data.title ∧
    ∃ r : SplitResult,
      split_flow_to_files ⟨"app", [.node ⟨"x1", { title := "t" }⟩,
        .node ⟨"x2", { title := "t" }⟩]⟩ "flow" [] = .ok r ∧
      r.dslAfter.nodes = [.ref (nodeFileOf ("flow" ++ "/nodes") ⟨"x1", { title := "t" }⟩),
        .ref (nodeFileOf ("flow" ++ "/nodes") ⟨"x1", { title := "t" }⟩)] ∧
      fsRead r.fs (nodeFileOf ("flow" ++ "/nodes") ⟨"x1", { title := "t" }⟩) =
        some (.yamlNode (nodeOutOf ("flow" ++ "/prompts") ("flow" ++ "/code")
          ⟨"x2", { title := "t" }⟩)) :=
  ⟨by decide, by decide,
    claim_C8_title_collision "flow" "app" ⟨"x1", { title := "t" }⟩ ⟨"x2", { title := "t" }⟩
      [] (by decide) (by decide) (by decide)⟩

/-- **C9** — `split_flow_to_files` mutates its input document: after a
successful call the caller's `dsl` has its node list replaced by
reference-pointer entries (one per node), and — because the per-node
copies are shallow (`node_data = dict(node)["data"]` aliases the caller's
mapping) — every prompt entry of the caller's original node objects now
holds a reference pointer in `text` instead of the original string. -/
theorem claim_C9_split_mutates_input (d : Doc) (flowDir : String) (fs : FS)
    (hin : inlineDoc d = true) :
    ∃ r : SplitResult, split_flow_to_files d flowDir fs = .ok r ∧
      r.dslAfter.appName = d.appName ∧
      r.dslAfter.nodes.length = d.nodes.length ∧
      (∀ e ∈ r.dslAfter.nodes, ∃ p, e = .ref p) ∧
      r.nodesAfter.length = d.nodes.length ∧
      (∀ n ∈ r.nodesAfter, ∀ pes, n.data.prompt_template = some pes →
        ∀ pe ∈ pes, ∃ p, pe.text = .ref p) := by
  have hwf : ∀ e ∈ d.nodes, inlineEntry e = true := List.all_eq_true.mp hin
  refine ⟨_, split_flow_to_files_eq d flowDir fs hin, rfl, by simp [dslAfterOf], ?_, ?_, ?_⟩
  · intro e he
    obtain ⟨e₀, _, heq⟩ := List.mem_map.mp he
    obtain ⟨p, hp⟩ := entryRefOf_is_ref (flowDir ++ "/nodes") e₀
    exact ⟨p, heq.symm.trans hp⟩
  · simp [outNodesOf]
  · intro n hn pes hpes pe hpe
    obtain ⟨e₀, he₀, heq⟩ := List.mem_map.mp hn
    cases e₀ with
    | ref q =>
      have := hwf (.ref q) he₀
      simp [inlineEntry] at this
    | node m =>
      have hm : inlineNodeData m.data = true := by
        have := hwf (.node m) he₀
        simpa [inlineEntry] using this
      have hmpt := nodeOutOf_prompt_template (flowDir ++ "/prompts") (flowDir ++ "/code") m
      rw [show entryOutOf (flowDir ++ "/prompts") (flowDir ++ "/code") (.node m) =
        nodeOutOf (flowDir ++ "/prompts") (flowDir ++ "/code") m from rfl] at heq
      rw [heq] at hmpt
      rw [hpes] at hmpt
      cases hmpt0 : m.data.prompt_template with
      | none => rw [hmpt0] at hmpt; simp at hmpt
      | some pes₀ =>
        rw [hmpt0] at hmpt
        have hpes0 : pes = outPromptsOf (flowDir ++ "/prompts") (nodeBase m) pes₀ := by
          simpa using hmpt
        have hall : pes₀.all inlinePrompt = true := by
          unfold inlineNodeData at hm
          rw [Bool.and_eq_true] at hm
          have := hm.1
          rw [hmpt0] at this
          simpa using this
        exact outPromptsOf_refs (flowDir ++ "/prompts") (nodeBase m) pes₀ hall pe
          (hpes0 ▸ hpe)

theorem claim_C9_split_mutates_input_witness :
    inlineDoc demoDoc = true ∧
    ∃ r : SplitResult, split_flow_to_files demoDoc "flow" [] = .ok r ∧
      r.dslAfter.appName = demoDoc.appName ∧
      r.dslAfter.nodes.length = demoDoc.nodes.length ∧
      (∀ e ∈ r.dslAfter.nodes, ∃ p, e = .ref p) ∧
      r.nodesAfter.length = demoDoc.nodes.length ∧
      (∀ n ∈ r.nodesAfter, ∀ pes, n.data.prompt_template = some pes →
        ∀ pe ∈ pes, ∃ p, pe.text = .ref p) :=
  ⟨by decide, claim_C9_split_mutates_input demoDoc "flow" [] (by decide)⟩

end Dfac
